import Mathlib

/-!
# multi-curl: the fetch-and-report loop

A shallow embedding of `main.go`: the fetcher `fetchURL`, the per-job worker
loop of `processURLs`, and the channel shared by the workers and the
aggregator of `main`.

* Go strings are byte sequences (`GoString`).
* Go's `int` is 64 bits wide; `n++` wraps (`wrapInt`).
* The standard library and the network are parameters: `Lib` holds the pure
  functions `url.Parse` and `http.NewRequestWithContext`, and a `Net` is what
  `client.Do` answers during one call of `fetchURL`.
* A run of a worker is the list of `Event`s it performs.
-/

namespace MultiCurl

/-! ## Strings, integers, errors -/

/-- A Go string: an immutable sequence of bytes. -/
abbrev GoString := List UInt8

/-- The bytes of an ASCII literal of the source. -/
def ascii (s : String) : GoString := s.toList.map (fun c => c.toNat.toUInt8)

/-- Largest value of Go's 64-bit `int`. -/
def maxInt : Int := 2 ^ 63 - 1

/-- Smallest value of Go's 64-bit `int`. -/
def minInt : Int := -(2 ^ 63)

/-- Two's-complement wrap-around of a mathematical integer into `int`. -/
def wrapInt (x : Int) : Int := (x + 2 ^ 63) % 2 ^ 64 - 2 ^ 63

/-- The verb `%d` of package `fmt` applied to an `int`. -/
def fmtInt : Int → GoString
  | Int.ofNat m => ascii (Nat.repr m)
  | Int.negSucc m => ascii "-" ++ ascii (Nat.repr (m + 1))

/-- The separator `" - "` that every format string of the source contains. -/
def sep : GoString := ascii " - "

/-- A Go `error` value: either made by `errors.New` or by `fmt.Errorf` with
the verb `%w`, which keeps the wrapped error. -/
inductive GoError where
  | errorString (s : GoString)
  | wrapError (msg : GoString) (err : GoError)
  deriving DecidableEq, Repr

/-- The method `Error()`. -/
def GoError.Error : GoError → GoString
  | .errorString s => s
  | .wrapError msg _ => msg

/-- The method `Unwrap()`. -/
def GoError.Unwrap : GoError → Option GoError
  | .errorString _ => none
  | .wrapError _ err => some err

/-- The function `errors.Is`: `target` occurs in the `Unwrap` chain of `e`. -/
def errorsIs : GoError → GoError → Bool
  | .errorString s, target => decide (GoError.errorString s = target)
  | .wrapError msg err, target =>
      decide (GoError.wrapError msg err = target) || errorsIs err target

/-- `var errFetchingURL = errors.New("error fetching url")`. -/
def errFetchingURL : GoError := .errorString (ascii "error fetching url")

/-! ## Configuration and results -/

/-- A `time.Duration`, in nanoseconds. -/
abbrev Duration := Int

/-- One element of `configs.Job`. -/
structure Job where
  URL : GoString
  Count : Int
  Method : GoString
  Host : GoString
  deriving DecidableEq, Repr

/-- The struct `configs`. -/
structure configs where
  Job : List Job
  Wait : Duration
  deriving DecidableEq, Repr

/-- The struct `result`; a nil `Err` is `none`. -/
structure result where
  Message : GoString
  Err : Option GoError
  deriving DecidableEq, Repr

/-! ## The library and the network -/

/-- A parsed `*url.URL`: its `Host` field and what `String()` reassembles. -/
structure URL where
  Host : GoString
  String : GoString
  deriving DecidableEq, Repr

/-- The fields of `*http.Request` the program touches. -/
structure Request where
  Method : GoString
  URL : URL
  Host : GoString
  deriving DecidableEq, Repr

/-- The `http.Transport` the client is built on. -/
structure Transport where
  InsecureSkipVerify : Bool
  deriving DecidableEq, Repr

/-- An `*http.Response`: the status code, what `ioutil.ReadAll(resp.Body)`
gives (the bytes, or the text of the read error), and the error
`resp.Body.Close()` returns, if any. -/
structure Response where
  StatusCode : Int
  Body : Except GoString GoString
  Close : Option GoString

/-- The pure library functions; an error is given by its text. -/
structure Lib where
  urlParse : GoString → Except GoString URL
  newRequest : GoString → GoString → Except GoString Request

/-- What `client.Do` answers during one call of `fetchURL`. -/
abbrev Net := Transport → Request → Except GoString Response

/-- The Host header `net/http` writes for a client request. It starts from
the `Host` field when that is not empty and from the host of the URL
otherwise, and passes the value through its own clean-up (Punycode, the check
for a valid header value, the removal of an IPv6 zone); `clean` stands for
that clean-up, which can also fail. -/
def Request.hostHeader (clean : GoString → Except GoString GoString) (r : Request) :
    Except GoString GoString :=
  clean (if r.Host = [] then r.URL.Host else r.Host)

/-! ## Events -/

/-- What a worker does, as seen from outside. -/
inductive Event where
  | logInfo (msg : GoString)
  | call (addr method host : GoString)
  | clientDo (tr : Transport) (req : Request)
  | readAll
  | bodyClose
  | logFatal
  | send (r : result)
  | sleep (d : Duration)
  | incr (n : Int)
  | wgDone
  deriving DecidableEq, Repr

/-! ## fetchURL -/

/-- How a call of `fetchURL` ends: it returns its two results, or the deferred
`resp.Body.Close()` fails and `log.Fatal` ends the process. -/
inductive FetchOutcome where
  | returned (res : GoString) (err : Option GoError)
  | fatal
  deriving DecidableEq, Repr

/-- `fmt.Errorf("%s - %w", err.Error(), errFetchingURL)`. -/
def fetchError (cause : GoString) : GoError :=
  .wrapError (cause ++ sep ++ errFetchingURL.Error) errFetchingURL

/-- The deferred closure of `fetchURL`: close the body, `log.Fatal` on error;
`out` is what the `return` statement had set. -/
def deferClose (resp : Response) (out : GoString × Option GoError) :
    List Event × FetchOutcome :=
  match resp.Close with
  | some _ => ([.bodyClose, .logFatal], .fatal)
  | none => ([.bodyClose], .returned out.1 out.2)

/-- The function `fetchURL`, with the events it performs. -/
def fetchURL (lib : Lib) (net : Net) (addr method host : GoString) :
    List Event × FetchOutcome :=
  let tr : Transport := { InsecureSkipVerify := true }
  match lib.urlParse addr with
  | .error e => ([], .returned [] (some (fetchError e)))
  | .ok url =>
    match lib.newRequest method url.String with
    | .error e => ([], .returned [] (some (fetchError e)))
    | .ok req0 =>
      let req : Request := { req0 with Host := host }
      match net tr req with
      | .error e => ([.clientDo tr req], .returned [] (some (fetchError e)))
      | .ok resp =>
        if resp.StatusCode = 200 then
          match resp.Body with
          | .error e =>
            let d := deferClose resp ([], some (fetchError e))
            (.clientDo tr req :: .readAll :: d.1, d.2)
          | .ok bodyBytes =>
            let d := deferClose resp (fmtInt resp.StatusCode ++ sep ++ bodyBytes, none)
            (.clientDo tr req :: .readAll :: d.1, d.2)
        else
          let d := deferClose resp (fmtInt resp.StatusCode ++ sep ++ [], none)
          (.clientDo tr req :: d.1, d.2)

/-! ## The worker of processURLs -/

/-- How far a run of a worker got. -/
inductive Status where
  | running
  | finished
  | exited
  deriving DecidableEq, Repr

/-- One pass through the body of the loop `for n <= configs.Job[i].Count`,
with `n` the counter on entry: the events, and the counter after `n++`
(`none` when the process exited in `fetchURL`). -/
def loopBody (lib : Lib) (net : Net) (job : Job) (wait : Duration) (n : Int) :
    List Event × Option Int :=
  match fetchURL lib net job.URL job.Method job.Host with
  | (evs, .fatal) => (.call job.URL job.Method job.Host :: evs, none)
  | (evs, .returned _ (some err)) =>
    (.call job.URL job.Method job.Host :: evs ++
      [.send { Message := [], Err := some (.wrapError (fmtInt n ++ sep ++ err.Error) err) },
       .incr (wrapInt (n + 1))],
     some (wrapInt (n + 1)))
  | (evs, .returned res none) =>
    (.call job.URL job.Method job.Host :: evs ++
      [.send { Message := fmtInt n ++ sep ++ res, Err := none },
       .sleep wait,
       .incr (wrapInt (n + 1))],
     some (wrapInt (n + 1)))

/-- The loop of a worker, from counter `n` and its `i`-th call of `fetchURL`
on; `net i` is the network during that call. `fuel` bounds the number of
times the loop condition is evaluated. -/
def workerLoop (lib : Lib) (net : Nat → Net) (job : Job) (wait : Duration) :
    Nat → Nat → Int → List Event × Status
  | 0, _, _ => ([], .running)
  | fuel + 1, i, n =>
    if n ≤ job.Count then
      match loopBody lib (net i) job wait n with
      | (evs, none) => (evs, .exited)
      | (evs, some n') =>
        let r := workerLoop lib net job wait fuel (i + 1) n'
        (evs ++ r.1, r.2)
    else ([], .finished)

/-- The goroutine `processURLs` starts for one job: the log line, the loop
from `n := 0`, and the deferred `wg.Done()`. -/
def worker (lib : Lib) (net : Nat → Net) (job : Job) (wait : Duration) (fuel : Nat) :
    List Event × Status :=
  match workerLoop lib net job wait fuel 0 0 with
  | (evs, .finished) =>
    (.logInfo (fmtInt job.Count ++ sep ++ job.URL) :: evs ++ [.wgDone], .finished)
  | (evs, st) => (.logInfo (fmtInt job.Count ++ sep ++ job.URL) :: evs, st)

/-- The results a run puts on the channel, in order. -/
def results : List Event → List result
  | [] => []
  | .send r :: es => r :: results es
  | _ :: es => results es

/-- The line the aggregator of `main` logs for a received result. -/
def aggregate (res : result) : GoString :=
  match res.Err with
  | some err => err.Error
  | none => res.Message


/-- The calls of `fetchURL` in a run. -/
def calls : List Event → Nat
  | [] => 0
  | .call _ _ _ :: es => calls es + 1
  | _ :: es => calls es

/-- The durations a run sleeps for, in order. -/
def sleeps : List Event → List Duration
  | [] => []
  | .sleep d :: es => d :: sleeps es
  | _ :: es => sleeps es

/-- The requests a run hands to `client.Do`, in order. -/
def requests : List Event → List Request
  | [] => []
  | .clientDo _ req :: es => req :: requests es
  | _ :: es => requests es

/-! ## processURLs and main: the workers side by side -/

/-- The function `processURLs`: one worker per job, worker `i` on the job
`configs.Job[i]`; `net i` is the network as worker `i` meets it. -/
def processURLs (lib : Lib) (net : Nat → Nat → Net) (cfg : configs) (fuel : Nat) :
    List (List Event × Status) :=
  cfg.Job.enum.map (fun p => worker lib (net p.1) p.2 cfg.Wait fuel)

/-- One step of the concurrent run: goroutine `i` performs its next event.
`ts` holds what each goroutine still has to do. -/
def stepRun (ts : List (List Event)) (i : Nat) : Option (Event × List (List Event)) :=
  match ts[i]? with
  | some (e :: rest) => some (e, ts.set i rest)
  | _ => none

/-- The concurrent run under a schedule, the list of the goroutines that move
in turn: the events in the order they happen, each with its goroutine, and
what is left to do. Nothing happens after `log.Fatal` has ended the process.
A send on the unbuffered channel is one event: it completes when the
aggregator receives the result. -/
def runSchedule : List (List Event) → List Nat → Option (List (Nat × Event) × List (List Event))
  | ts, [] => some ([], ts)
  | ts, i :: sched =>
    match stepRun ts i with
    | none => none
    | some (e, ts') =>
      if e = .logFatal then
        if sched = [] then some ([(i, e)], ts') else none
      else
        match runSchedule ts' sched with
        | none => none
        | some (log, rest) => some ((i, e) :: log, rest)

/-- What the aggregator of `main` receives from the channel, in order, each
result with the worker that sent it. -/
def received : List (Nat × Event) → List (Nat × result)
  | [] => []
  | (i, .send r) :: es => (i, r) :: received es
  | _ :: es => received es

/-- The number of `wg.Done()` calls in a run. -/
def doneCount : List (Nat × Event) → Nat
  | [] => 0
  | (_, .wgDone) :: es => doneCount es + 1
  | _ :: es => doneCount es

/-- The counter of the wait group after `wg.Add(len(configs.Job))` and the
`wg.Done()` calls of a run; `wg.Wait()` returns when it is zero. -/
def wgCounter (cfg : configs) (log : List (Nat × Event)) : Int :=
  (cfg.Job.length : Int) - (doneCount log : Int)

/-! ## Auxiliary notions -/

/-- The events `fetchURL` itself performs. -/
def Event.inFetch : Event → Bool
  | .clientDo _ _ => true
  | .readAll => true
  | .bodyClose => true
  | .logFatal => true
  | _ => false

/-- The result the loop body sends at counter `n` after a call of `fetchURL`
that ended in `out` (lines 87 and 94); none when the process exited. -/
def emitted (n : Int) : FetchOutcome → Option result
  | .fatal => none
  | .returned _ (some err) =>
    some { Message := [], Err := some (.wrapError (fmtInt n ++ sep ++ err.Error) err) }
  | .returned res none => some { Message := fmtInt n ++ sep ++ res, Err := none }

/-- The shape of a run as far as sends and sleeps go: a send without error is
followed by one sleep of `wait` and the increment, a send with an error by the
increment alone, and no other event is a send or a sleep. -/
inductive Paced (wait : Duration) : List Event → Prop where
  | nil : Paced wait []
  | other (e : Event) (rest : List Event) :
      (∀ r, e ≠ .send r) → (∀ d, e ≠ .sleep d) → Paced wait rest → Paced wait (e :: rest)
  | ok (msg : GoString) (n : Int) (rest : List Event) :
      Paced wait rest →
      Paced wait (.send { Message := msg, Err := none } :: .sleep wait :: .incr n :: rest)
  | fail (msg : GoString) (err : GoError) (n : Int) (rest : List Event) :
      Paced wait rest →
      Paced wait (.send { Message := msg, Err := some err } :: .incr n :: rest)

/-- What goroutine `i` did in a concurrent run, in order. -/
def eventsOf (i : Nat) (log : List (Nat × Event)) : List Event :=
  (log.filter (fun p => p.1 = i)).map Prod.snd

/-- What the aggregator received from worker `i`, in order. -/
def receivedFrom (i : Nat) (log : List (Nat × Event)) : List result :=
  ((received log).filter (fun p => p.1 = i)).map Prod.snd

/-- Weight 1 for a `wg.Done()`. -/
def isDone : Event → Nat
  | .wgDone => 1
  | _ => 0

/-- Weight 1 for a send. -/
def isSend : Event → Nat
  | .send _ => 1
  | _ => 0

/-- The total weight of a trace. -/
def weigh (g : Event → Nat) (t : List Event) : Nat := (t.map g).sum

/-! ## Sample inputs -/

/-- A library that rejects `"::not a url::"` and accepts every other address. -/
def sampleLib : Lib where
  urlParse := fun a =>
    if a = ascii "::not a url::" then .error (ascii "missing protocol scheme")
    else .ok { Host := ascii "example.com", String := a }
  newRequest := fun m u =>
    .ok { Method := m, URL := { Host := ascii "example.com", String := u },
          Host := ascii "example.com" }

/-- A server that answers 200 with body `ok`. -/
def okNet : Net := fun _ _ =>
  .ok { StatusCode := 200, Body := .ok (ascii "ok"), Close := none }

/-- A server that answers 404 with a body that breaks off: reading it would
fail. -/
def truncatedNet : Net := fun _ _ =>
  .ok { StatusCode := 404, Body := .error (ascii "unexpected EOF"), Close := none }

/-- A server that answers 101, the body being the connection itself, whose
close fails. -/
def switchingNet : Net := fun _ _ =>
  .ok { StatusCode := 101, Body := .ok [],
        Close := some (ascii "use of closed network connection") }

/-- A server that refuses the connection. -/
def refusedNet : Net := fun _ _ => .error (ascii "connection refused")

/-- A server that answers 200 with body `ok`, and whose body fails to close. -/
def closeFailNet : Net := fun _ _ =>
  .ok { StatusCode := 200, Body := .ok (ascii "ok"), Close := some (ascii "close failed") }

/-- A network that answers every other call and refuses the rest. -/
def flakyNet : Nat → Net := fun i => if i % 2 = 0 then okNet else refusedNet

/-- A job on a good address. -/
def sampleJob (count : Int) : Job :=
  { URL := ascii "http://example.com/", Count := count, Method := ascii "GET", Host := [] }

/-- A job on an address that does not parse. -/
def badJob (count : Int) : Job :=
  { URL := ascii "::not a url::", Count := count, Method := ascii "GET", Host := [] }

/-- Two jobs, with counts 0 and 2. -/
def sampleConfigs : configs :=
  { Job := [sampleJob 0, sampleJob 2], Wait := 1000000000 }

/-- The network of `sampleConfigs` when the first job gets the 101 whose close
fails and the second a 200. -/
def closeFirstNet : Nat → Nat → Net := fun i _ => if i = 0 then switchingNet else okNet

/-- One job, on an address that does not parse, with the largest count. -/
def maxConfigs : configs :=
  { Job := [badJob maxInt], Wait := 5 }

/-- A schedule that runs the two workers of `sampleConfigs` on a server that
answers 200: in turn while both have something to do, then the second alone. -/
def sampleSchedule : List Nat :=
  [0, 1, 0, 1, 0, 1, 0, 1, 0, 1, 0, 1, 0, 1, 0, 1, 0, 1] ++ List.replicate 14 1

/-- The concurrent run of `sampleConfigs` under `sampleSchedule`. -/
def sampleRun : List (Nat × Event) × List (List Event) :=
  (runSchedule ((processURLs sampleLib (fun _ _ => okNet) sampleConfigs 5).map Prod.fst)
    sampleSchedule).getD ([], [])

/-! ## Arithmetic of `int` -/

theorem wrapInt_eq {x : Int} (h1 : minInt ≤ x) (h2 : x ≤ maxInt) : wrapInt x = x := by
  simp only [wrapInt, minInt, maxInt] at *
  omega

theorem wrapInt_range (x : Int) : minInt ≤ wrapInt x ∧ wrapInt x ≤ maxInt := by
  simp only [wrapInt, minInt, maxInt]
  omega

theorem wrapInt_succ_maxInt : wrapInt (maxInt + 1) = minInt := by
  decide

theorem sep_ne_nil : sep ≠ [] := by decide

/-! ## Traces -/

theorem results_append (a b : List Event) : results (a ++ b) = results a ++ results b := by
  induction a with
  | nil => rfl
  | cons e a ih => cases e <;> simp [results, ih]

theorem calls_append (a b : List Event) : calls (a ++ b) = calls a + calls b := by
  induction a with
  | nil => simp [calls]
  | cons e a ih => cases e <;> simp +arith [calls, ih]

theorem requests_append (a b : List Event) :
    requests (a ++ b) = requests a ++ requests b := by
  induction a with
  | nil => rfl
  | cons e a ih => cases e <;> simp [requests, ih]

theorem results_of_inFetch {t : List Event} (h : ∀ e ∈ t, e.inFetch = true) :
    results t = [] := by
  induction t with
  | nil => rfl
  | cons e t ih =>
    have he := h e (List.mem_cons_self _ _)
    have ht := ih (fun x hx => h x (List.mem_cons_of_mem _ hx))
    cases e <;> simp_all [results, Event.inFetch]

theorem calls_of_inFetch {t : List Event} (h : ∀ e ∈ t, e.inFetch = true) :
    calls t = 0 := by
  induction t with
  | nil => rfl
  | cons e t ih =>
    have he := h e (List.mem_cons_self _ _)
    have ht := ih (fun x hx => h x (List.mem_cons_of_mem _ hx))
    cases e <;> simp_all [calls, Event.inFetch]

/-! ## fetchURL -/

theorem deferClose_inFetch (resp : Response) (out : GoString × Option GoError) :
    ∀ e ∈ (deferClose resp out).1, e.inFetch = true := by
  unfold deferClose
  split <;> simp [Event.inFetch]

theorem fetchURL_parse_error {lib : Lib} {addr : GoString} {e : GoString}
    (h : lib.urlParse addr = .error e) (net : Net) (method host : GoString) :
    fetchURL lib net addr method host = ([], .returned [] (some (fetchError e))) := by
  simp [fetchURL, h]

theorem fetchURL_newRequest_error {lib : Lib} {addr method : GoString} {url : URL}
    {e : GoString} (h : lib.urlParse addr = .ok url)
    (h2 : lib.newRequest method url.String = .error e) (net : Net) (host : GoString) :
    fetchURL lib net addr method host = ([], .returned [] (some (fetchError e))) := by
  simp [fetchURL, h, h2]

theorem fetchURL_do_error {lib : Lib} {net : Net} {addr method host : GoString} {url : URL}
    {req0 : Request} {e : GoString} (h : lib.urlParse addr = .ok url)
    (h2 : lib.newRequest method url.String = .ok req0)
    (h3 : net { InsecureSkipVerify := true } { req0 with Host := host } = .error e) :
    fetchURL lib net addr method host =
      ([.clientDo { InsecureSkipVerify := true } { req0 with Host := host }],
       .returned [] (some (fetchError e))) := by
  simp [fetchURL, h, h2, h3]

theorem fetchURL_read_error {lib : Lib} {net : Net} {addr method host : GoString} {url : URL}
    {req0 : Request} {resp : Response} {e : GoString} (h : lib.urlParse addr = .ok url)
    (h2 : lib.newRequest method url.String = .ok req0)
    (h3 : net { InsecureSkipVerify := true } { req0 with Host := host } = .ok resp)
    (h4 : resp.StatusCode = 200) (h5 : resp.Body = .error e) :
    fetchURL lib net addr method host =
      (.clientDo { InsecureSkipVerify := true } { req0 with Host := host } :: .readAll ::
          (deferClose resp ([], some (fetchError e))).1,
       (deferClose resp ([], some (fetchError e))).2) := by
  simp [fetchURL, h, h2, h3, h4, h5]

theorem fetchURL_read_ok {lib : Lib} {net : Net} {addr method host : GoString} {url : URL}
    {req0 : Request} {resp : Response} {b : GoString} (h : lib.urlParse addr = .ok url)
    (h2 : lib.newRequest method url.String = .ok req0)
    (h3 : net { InsecureSkipVerify := true } { req0 with Host := host } = .ok resp)
    (h4 : resp.StatusCode = 200) (h5 : resp.Body = .ok b) :
    fetchURL lib net addr method host =
      (.clientDo { InsecureSkipVerify := true } { req0 with Host := host } :: .readAll ::
          (deferClose resp (fmtInt 200 ++ sep ++ b, none)).1,
       (deferClose resp (fmtInt 200 ++ sep ++ b, none)).2) := by
  simp [fetchURL, h, h2, h3, h4, h5]

theorem fetchURL_not_ok {lib : Lib} {net : Net} {addr method host : GoString} {url : URL}
    {req0 : Request} {resp : Response} (h : lib.urlParse addr = .ok url)
    (h2 : lib.newRequest method url.String = .ok req0)
    (h3 : net { InsecureSkipVerify := true } { req0 with Host := host } = .ok resp)
    (h4 : resp.StatusCode ≠ 200) :
    fetchURL lib net addr method host =
      (.clientDo { InsecureSkipVerify := true } { req0 with Host := host } ::
          (deferClose resp (fmtInt resp.StatusCode ++ sep ++ [], none)).1,
       (deferClose resp (fmtInt resp.StatusCode ++ sep ++ [], none)).2) := by
  simp [fetchURL, h, h2, h3, h4]

theorem fetchURL_inFetch (lib : Lib) (net : Net) (addr method host : GoString) :
    ∀ e ∈ (fetchURL lib net addr method host).1, e.inFetch = true := by
  rcases h : lib.urlParse addr with e | url
  · simp [fetchURL_parse_error h]
  rcases h2 : lib.newRequest method url.String with e | req0
  · simp [fetchURL_newRequest_error h h2]
  rcases h3 : net { InsecureSkipVerify := true } { req0 with Host := host } with e | resp
  · simp [fetchURL_do_error h h2 h3, Event.inFetch]
  by_cases h4 : resp.StatusCode = 200
  · rcases h5 : resp.Body with e | b
    · rw [fetchURL_read_error h h2 h3 h4 h5]
      simpa [Event.inFetch] using deferClose_inFetch _ _
    · rw [fetchURL_read_ok h h2 h3 h4 h5]
      simpa [Event.inFetch] using deferClose_inFetch _ _
  · rw [fetchURL_not_ok h h2 h3 h4]
    simpa [Event.inFetch] using deferClose_inFetch _ _

theorem deferClose_outcome (resp : Response) (out : GoString × Option GoError) :
    (deferClose resp out).2 = .fatal ∨ (deferClose resp out).2 = .returned out.1 out.2 := by
  unfold deferClose
  split <;> simp

theorem fetchURL_outcome (lib : Lib) (net : Net) (addr method host : GoString) :
    (fetchURL lib net addr method host).2 = .fatal ∨
    (∃ cause, (fetchURL lib net addr method host).2 = .returned [] (some (fetchError cause))) ∨
    (∃ c b, (fetchURL lib net addr method host).2 = .returned (fmtInt c ++ sep ++ b) none) := by
  rcases h : lib.urlParse addr with e | url
  · exact Or.inr (Or.inl ⟨e, by simp [fetchURL_parse_error h]⟩)
  rcases h2 : lib.newRequest method url.String with e | req0
  · exact Or.inr (Or.inl ⟨e, by simp [fetchURL_newRequest_error h h2]⟩)
  rcases h3 : net { InsecureSkipVerify := true } { req0 with Host := host } with e | resp
  · exact Or.inr (Or.inl ⟨e, by simp [fetchURL_do_error h h2 h3]⟩)
  by_cases h4 : resp.StatusCode = 200
  · rcases h5 : resp.Body with e | b
    · rw [fetchURL_read_error h h2 h3 h4 h5]
      rcases deferClose_outcome resp ([], some (fetchError e)) with hd | hd
      · exact Or.inl hd
      · exact Or.inr (Or.inl ⟨e, hd⟩)
    · rw [fetchURL_read_ok h h2 h3 h4 h5]
      rcases deferClose_outcome resp (fmtInt 200 ++ sep ++ b, none) with hd | hd
      · exact Or.inl hd
      · exact Or.inr (Or.inr ⟨200, b, hd⟩)
  · rw [fetchURL_not_ok h h2 h3 h4]
    rcases deferClose_outcome resp (fmtInt resp.StatusCode ++ sep ++ [], none) with hd | hd
    · exact Or.inl hd
    · exact Or.inr (Or.inr ⟨resp.StatusCode, [], hd⟩)

/-! ## The loop body -/

theorem loopBody_fatal {lib : Lib} {net : Net} {job : Job}
    (h : (fetchURL lib net job.URL job.Method job.Host).2 = .fatal) (wait : Duration)
    (n : Int) :
    loopBody lib net job wait n =
      (.call job.URL job.Method job.Host :: (fetchURL lib net job.URL job.Method job.Host).1,
       none) := by
  unfold loopBody
  generalize fetchURL lib net job.URL job.Method job.Host = p at h
  obtain ⟨evs, out⟩ := p
  simp only at h
  subst h
  rfl

theorem loopBody_err {lib : Lib} {net : Net} {job : Job} {res : GoString} {err : GoError}
    (h : (fetchURL lib net job.URL job.Method job.Host).2 = .returned res (some err))
    (wait : Duration) (n : Int) :
    loopBody lib net job wait n =
      (.call job.URL job.Method job.Host ::
          (fetchURL lib net job.URL job.Method job.Host).1 ++
        [.send { Message := [],
                 Err := some (.wrapError (fmtInt n ++ sep ++ err.Error) err) },
         .incr (wrapInt (n + 1))],
       some (wrapInt (n + 1))) := by
  unfold loopBody
  generalize fetchURL lib net job.URL job.Method job.Host = p at h
  obtain ⟨evs, out⟩ := p
  simp only at h
  subst h
  rfl

theorem loopBody_ok {lib : Lib} {net : Net} {job : Job} {res : GoString}
    (h : (fetchURL lib net job.URL job.Method job.Host).2 = .returned res none)
    (wait : Duration) (n : Int) :
    loopBody lib net job wait n =
      (.call job.URL job.Method job.Host ::
          (fetchURL lib net job.URL job.Method job.Host).1 ++
        [.send { Message := fmtInt n ++ sep ++ res, Err := none },
         .sleep wait,
         .incr (wrapInt (n + 1))],
       some (wrapInt (n + 1))) := by
  unfold loopBody
  generalize fetchURL lib net job.URL job.Method job.Host = p at h
  obtain ⟨evs, out⟩ := p
  simp only at h
  subst h
  rfl

theorem results_loopBody (lib : Lib) (net : Net) (job : Job) (wait : Duration) (n : Int) :
    results (loopBody lib net job wait n).1 =
      (emitted n (fetchURL lib net job.URL job.Method job.Host).2).toList := by
  have hf := results_of_inFetch (fetchURL_inFetch lib net job.URL job.Method job.Host)
  rcases h : (fetchURL lib net job.URL job.Method job.Host).2 with ⟨res, _ | err⟩ | _
  · simp [loopBody_ok h, results, results_append, hf, emitted]
  · simp [loopBody_err h, results, results_append, hf, emitted]
  · simp [loopBody_fatal h, results, hf, emitted]

theorem calls_loopBody (lib : Lib) (net : Net) (job : Job) (wait : Duration) (n : Int) :
    calls (loopBody lib net job wait n).1 = 1 := by
  have hf := calls_of_inFetch (fetchURL_inFetch lib net job.URL job.Method job.Host)
  rcases h : (fetchURL lib net job.URL job.Method job.Host).2 with ⟨res, _ | err⟩ | _
  · simp [loopBody_ok h, calls, calls_append, hf]
  · simp [loopBody_err h, calls, calls_append, hf]
  · simp [loopBody_fatal h, calls, hf]

/-! ## The loop -/

theorem workerLoop_zero (lib : Lib) (net : Nat → Net) (job : Job) (wait : Duration)
    (i : Nat) (n : Int) : workerLoop lib net job wait 0 i n = ([], .running) := rfl

theorem workerLoop_done {job : Job} {n : Int} (h : ¬ n ≤ job.Count) (lib : Lib)
    (net : Nat → Net) (wait : Duration) (fuel i : Nat) :
    workerLoop lib net job wait (fuel + 1) i n = ([], .finished) := by
  simp [workerLoop, h]

theorem workerLoop_fatal {lib : Lib} {net : Nat → Net} {job : Job} {n : Int} {i : Nat}
    (h : n ≤ job.Count)
    (hf : (fetchURL lib (net i) job.URL job.Method job.Host).2 = .fatal)
    (wait : Duration) (fuel : Nat) :
    workerLoop lib net job wait (fuel + 1) i n =
      ((loopBody lib (net i) job wait n).1, .exited) := by
  simp [workerLoop, h, loopBody_fatal hf]

theorem workerLoop_step {lib : Lib} {net : Nat → Net} {job : Job} {n : Int} {i : Nat}
    (h : n ≤ job.Count)
    (hf : (fetchURL lib (net i) job.URL job.Method job.Host).2 ≠ .fatal)
    (wait : Duration) (fuel : Nat) :
    workerLoop lib net job wait (fuel + 1) i n =
      ((loopBody lib (net i) job wait n).1 ++
          (workerLoop lib net job wait fuel (i + 1) (wrapInt (n + 1))).1,
       (workerLoop lib net job wait fuel (i + 1) (wrapInt (n + 1))).2) := by
  rcases hh : (fetchURL lib (net i) job.URL job.Method job.Host).2 with ⟨res, _ | err⟩ | _
  · simp [workerLoop, h, loopBody_ok hh]
  · simp [workerLoop, h, loopBody_err hh]
  · exact absurd hh hf

theorem emitted_isSome {n : Int} {out : FetchOutcome} (h : out ≠ .fatal) :
    ∃ r, emitted n out = some r := by
  rcases out with ⟨res, _ | err⟩ | _
  · exact ⟨_, rfl⟩
  · exact ⟨_, rfl⟩
  · exact absurd rfl h

/-- The `j`-th result of a run of the loop is the one the loop body sends for
the `j`-th call, at the counter advanced `j` times. -/
theorem results_workerLoop_get (lib : Lib) (net : Nat → Net) (job : Job) (wait : Duration) :
    ∀ (fuel i : Nat) (n : Int) (j : Nat) (r : result), minInt ≤ n → n + j ≤ maxInt →
      (results (workerLoop lib net job wait fuel i n).1)[j]? = some r →
      emitted (n + j) (fetchURL lib (net (i + j)) job.URL job.Method job.Host).2 = some r ∧
        n + j ≤ job.Count := by
  intro fuel
  induction fuel with
  | zero => intro i n j r _ _ h; simp [workerLoop_zero, results] at h
  | succ fuel ih =>
    intro i n j r hn hj h
    by_cases hc : n ≤ job.Count
    · by_cases hf : (fetchURL lib (net i) job.URL job.Method job.Host).2 = .fatal
      · simp [workerLoop_fatal hc hf, results_loopBody, hf, emitted] at h
      · obtain ⟨r0, hr0⟩ := emitted_isSome (n := n) hf
        rw [workerLoop_step hc hf] at h
        simp only [results_append, results_loopBody, hr0, Option.toList] at h
        cases j with
        | zero =>
          simp only [List.singleton_append, List.getElem?_cons_zero, Option.some.injEq] at h
          subst h
          simpa using ⟨hr0, hc⟩
        | succ j =>
          simp only [List.singleton_append, List.getElem?_cons_succ] at h
          have hw : wrapInt (n + 1) = n + 1 := by
            apply wrapInt_eq <;> push_cast at hj <;> omega
          rw [hw] at h
          have := ih (i + 1) (n + 1) j r (by omega) (by push_cast at hj; omega) h
          have e1 : i + 1 + j = i + (j + 1) := by omega
          have e2 : n + 1 + (j : Int) = n + ((j + 1 : Nat) : Int) := by push_cast; omega
          rw [e1, e2] at this
          exact this
    · simp [workerLoop_done hc, results] at h

/-- While the counter stays within the count, each unit of fuel buys one
attempt: one call and one result. -/
theorem workerLoop_progress (lib : Lib) (net : Nat → Net) (job : Job) (wait : Duration)
    (hC : job.Count ≤ maxInt) :
    ∀ (fuel i : Nat) (n : Int), minInt ≤ n → n + fuel ≤ job.Count + 1 →
      (∀ m, i ≤ m → m < i + fuel →
        (fetchURL lib (net m) job.URL job.Method job.Host).2 ≠ .fatal) →
      (workerLoop lib net job wait fuel i n).2 = .running ∧
      (results (workerLoop lib net job wait fuel i n).1).length = fuel ∧
      calls (workerLoop lib net job wait fuel i n).1 = fuel := by
  intro fuel
  induction fuel with
  | zero => intro i n _ _ _; simp [workerLoop_zero, results, calls]
  | succ fuel ih =>
    intro i n hn hb hnf
    have hc : n ≤ job.Count := by push_cast at hb; omega
    have hf := hnf i (le_refl _) (by omega)
    obtain ⟨r0, hr0⟩ := emitted_isSome (n := n) hf
    rw [workerLoop_step hc hf]
    simp only [results_append, results_loopBody, hr0, Option.toList, calls_append,
      calls_loopBody]
    cases fuel with
    | zero => simp [workerLoop_zero, results, calls]
    | succ fuel =>
      have hw : wrapInt (n + 1) = n + 1 := by
        apply wrapInt_eq <;> push_cast at hb <;> omega
      rw [hw]
      obtain ⟨h1, h2, h3⟩ := ih (i + 1) (n + 1) (by omega) (by push_cast at hb ⊢; omega)
        (fun m hm hm2 => hnf m (by omega) (by omega))
      refine ⟨h1, ?_, ?_⟩
      · simp [h2]
      · omega

/-- Below the largest `int`, and with fuel enough, the loop ends after one
attempt for each counter value up to the count. -/
theorem workerLoop_finishes (lib : Lib) (net : Nat → Net) (job : Job) (wait : Duration)
    (hC : job.Count < maxInt) :
    ∀ (fuel i : Nat) (n : Int), minInt ≤ n → (job.Count + 1 - n).toNat < fuel →
      (∀ m, i ≤ m → m < i + (job.Count + 1 - n).toNat →
        (fetchURL lib (net m) job.URL job.Method job.Host).2 ≠ .fatal) →
      (workerLoop lib net job wait fuel i n).2 = .finished ∧
      (results (workerLoop lib net job wait fuel i n).1).length = (job.Count + 1 - n).toNat ∧
      calls (workerLoop lib net job wait fuel i n).1 = (job.Count + 1 - n).toNat := by
  intro fuel
  induction fuel with
  | zero => intro i n _ h; omega
  | succ fuel ih =>
    intro i n hn hfuel hnf
    by_cases hc : n ≤ job.Count
    · have hf := hnf i (le_refl _) (by omega)
      obtain ⟨r0, hr0⟩ := emitted_isSome (n := n) hf
      rw [workerLoop_step hc hf]
      simp only [results_append, results_loopBody, hr0, Option.toList, calls_append,
        calls_loopBody]
      have hw : wrapInt (n + 1) = n + 1 := by
        apply wrapInt_eq <;> omega
      rw [hw]
      obtain ⟨h1, h2, h3⟩ := ih (i + 1) (n + 1) (by omega) (by omega)
        (fun m hm hm2 => hnf m (by omega) (by omega))
      refine ⟨h1, ?_, ?_⟩
      · simp only [List.singleton_append, List.length_cons, h2]; omega
      · omega
    · rw [workerLoop_done hc]
      have : (job.Count + 1 - n).toNat = 0 := by omega
      simp [results, calls, this]

/-- With the count at the largest `int` the loop condition never fails. -/
theorem workerLoop_maxInt_not_finished (lib : Lib) (net : Nat → Net) (job : Job)
    (wait : Duration) (hC : maxInt ≤ job.Count) :
    ∀ (fuel i : Nat) (n : Int), n ≤ maxInt →
      (workerLoop lib net job wait fuel i n).2 ≠ .finished := by
  intro fuel
  induction fuel with
  | zero => intro i n _; simp [workerLoop_zero]
  | succ fuel ih =>
    intro i n hn
    have hc : n ≤ job.Count := le_trans hn hC
    by_cases hf : (fetchURL lib (net i) job.URL job.Method job.Host).2 = .fatal
    · simp [workerLoop_fatal hc hf]
    · rw [workerLoop_step hc hf]
      exact ih (i + 1) _ (wrapInt_range _).2

/-- A loop that has ended made one attempt for each counter value up to the
count. -/
theorem workerLoop_finished_count (lib : Lib) (net : Nat → Net) (job : Job)
    (wait : Duration) (hC : job.Count ≤ maxInt) :
    ∀ (fuel i : Nat) (n : Int), minInt ≤ n → n ≤ maxInt →
      (workerLoop lib net job wait fuel i n).2 = .finished →
      (results (workerLoop lib net job wait fuel i n).1).length = (job.Count + 1 - n).toNat ∧
      calls (workerLoop lib net job wait fuel i n).1 = (job.Count + 1 - n).toNat := by
  intro fuel
  induction fuel with
  | zero => intro i n _ _ h; simp [workerLoop_zero] at h
  | succ fuel ih =>
    intro i n hn hn2 hfin
    by_cases hc : n ≤ job.Count
    · by_cases hf : (fetchURL lib (net i) job.URL job.Method job.Host).2 = .fatal
      · simp [workerLoop_fatal hc hf] at hfin
      · obtain ⟨r0, hr0⟩ := emitted_isSome (n := n) hf
        rw [workerLoop_step hc hf] at hfin ⊢
        simp only [results_append, results_loopBody, hr0, Option.toList, calls_append,
          calls_loopBody]
        by_cases hmax : n = maxInt
        · have hC2 : maxInt ≤ job.Count := by omega
          exact absurd hfin
            (workerLoop_maxInt_not_finished lib net job wait hC2 fuel (i + 1) _
              (wrapInt_range _).2)
        · have hw : wrapInt (n + 1) = n + 1 := by
            apply wrapInt_eq <;> omega
          rw [hw] at hfin ⊢
          obtain ⟨h2, h3⟩ := ih (i + 1) (n + 1) (by omega) (by omega) hfin
          refine ⟨?_, ?_⟩
          · simp only [List.singleton_append, List.length_cons, h2]; omega
          · omega
    · rw [workerLoop_done hc]
      have : (job.Count + 1 - n).toNat = 0 := by omega
      simp [results, calls, this]

/-- With the count at the largest `int`, every unit of fuel buys one more
attempt, whatever the counter. -/
theorem workerLoop_maxInt_runs (lib : Lib) (net : Nat → Net) (job : Job) (wait : Duration)
    (hC : maxInt ≤ job.Count)
    (hnf : ∀ m, (fetchURL lib (net m) job.URL job.Method job.Host).2 ≠ .fatal) :
    ∀ (fuel i : Nat) (n : Int), n ≤ maxInt →
      (workerLoop lib net job wait fuel i n).2 = .running ∧
      (results (workerLoop lib net job wait fuel i n).1).length = fuel := by
  intro fuel
  induction fuel with
  | zero => intro i n _; simp [workerLoop_zero, results]
  | succ fuel ih =>
    intro i n hn
    have hc : n ≤ job.Count := le_trans hn hC
    obtain ⟨r0, hr0⟩ := emitted_isSome (n := n) (hnf i)
    rw [workerLoop_step hc (hnf i)]
    obtain ⟨h1, h2⟩ := ih (i + 1) (wrapInt (n + 1)) (wrapInt_range _).2
    simp [results_append, results_loopBody, hr0, h1, h2]

/-- Every result of a run of the loop is sent by the loop body for some call
and some counter. -/
theorem mem_results_workerLoop (lib : Lib) (net : Nat → Net) (job : Job) (wait : Duration) :
    ∀ (fuel i : Nat) (n : Int) (r : result),
      r ∈ results (workerLoop lib net job wait fuel i n).1 →
      ∃ (m : Nat) (k : Int),
        emitted k (fetchURL lib (net m) job.URL job.Method job.Host).2 = some r := by
  intro fuel
  induction fuel with
  | zero => intro i n r h; simp [workerLoop_zero, results] at h
  | succ fuel ih =>
    intro i n r h
    by_cases hc : n ≤ job.Count
    · by_cases hf : (fetchURL lib (net i) job.URL job.Method job.Host).2 = .fatal
      · simp [workerLoop_fatal hc hf, results_loopBody, hf, emitted] at h
      · rw [workerLoop_step hc hf, results_append, List.mem_append] at h
        rcases h with h | h
        · rw [results_loopBody] at h
          exact ⟨i, n, by simpa [Option.mem_toList] using h⟩
        · exact ih _ _ r h
    · simp [workerLoop_done hc, results] at h

/-! ## The worker -/

theorem worker_status (lib : Lib) (net : Nat → Net) (job : Job) (wait : Duration)
    (fuel : Nat) :
    (worker lib net job wait fuel).2 = (workerLoop lib net job wait fuel 0 0).2 := by
  unfold worker
  rcases h : workerLoop lib net job wait fuel 0 0 with ⟨evs, st⟩
  cases st <;> rfl

theorem worker_trace (lib : Lib) (net : Nat → Net) (job : Job) (wait : Duration)
    (fuel : Nat) :
    (worker lib net job wait fuel).1 =
      .logInfo (fmtInt job.Count ++ sep ++ job.URL) ::
        (workerLoop lib net job wait fuel 0 0).1 ++
        (if (workerLoop lib net job wait fuel 0 0).2 = .finished then [.wgDone] else []) := by
  unfold worker
  rcases h : workerLoop lib net job wait fuel 0 0 with ⟨evs, st⟩
  cases st <;> simp

theorem results_worker (lib : Lib) (net : Nat → Net) (job : Job) (wait : Duration)
    (fuel : Nat) :
    results (worker lib net job wait fuel).1 =
      results (workerLoop lib net job wait fuel 0 0).1 := by
  rw [worker_trace]
  split <;> simp [results, results_append]

theorem calls_worker (lib : Lib) (net : Nat → Net) (job : Job) (wait : Duration)
    (fuel : Nat) :
    calls (worker lib net job wait fuel).1 =
      calls (workerLoop lib net job wait fuel 0 0).1 := by
  rw [worker_trace]
  split <;> simp [calls, calls_append]

theorem minInt_le_zero : minInt ≤ 0 := by decide

theorem zero_le_maxInt : (0 : Int) ≤ maxInt := by decide

/-- With fuel for it and no fatal exit on the way, the `j`-th result is there. -/
theorem results_workerLoop_length (lib : Lib) (net : Nat → Net) (job : Job)
    (wait : Duration) (hC : job.Count ≤ maxInt) :
    ∀ (fuel i : Nat) (n : Int) (j : Nat), minInt ≤ n → j < fuel → n + j ≤ job.Count →
      (∀ m, i ≤ m → m ≤ i + j →
        (fetchURL lib (net m) job.URL job.Method job.Host).2 ≠ .fatal) →
      j < (results (workerLoop lib net job wait fuel i n).1).length := by
  intro fuel
  induction fuel with
  | zero => intro i n j _ h; omega
  | succ fuel ih =>
    intro i n j hn hj hb hnf
    have hc : n ≤ job.Count := by omega
    have hf := hnf i (le_refl _) (by omega)
    obtain ⟨r0, hr0⟩ := emitted_isSome (n := n) hf
    rw [workerLoop_step hc hf]
    simp only [results_append, results_loopBody, hr0, Option.toList, List.singleton_append,
      List.length_cons]
    cases j with
    | zero => omega
    | succ j =>
      have hw : wrapInt (n + 1) = n + 1 := by
        apply wrapInt_eq <;> push_cast at hb <;> omega
      rw [hw]
      have := ih (i + 1) (n + 1) j (by omega) (by omega) (by push_cast at hb; omega)
        (fun m hm hm2 => hnf m (by omega) (by omega))
      omega

theorem fetchError_Error (cause : GoString) :
    (fetchError cause).Error = cause ++ ascii " - error fetching url" := by
  have : sep ++ errFetchingURL.Error = ascii " - error fetching url" := by decide
  show cause ++ sep ++ errFetchingURL.Error = _
  rw [List.append_assoc, this]

theorem errorsIs_fetchError (cause : GoString) :
    errorsIs (fetchError cause) errFetchingURL = true := by
  simp [fetchError, errorsIs, errFetchingURL]

theorem errorsIs_wrap_fetchError (msg cause : GoString) :
    errorsIs (.wrapError msg (fetchError cause)) errFetchingURL = true := by
  simp [fetchError, errorsIs, errFetchingURL]

/-- An error `fetchURL` returns comes with an empty string and is made from
the text of one of the four failures. -/
theorem fetchURL_err_cause {lib : Lib} {net : Net} {addr method host res : GoString}
    {e : GoError} (h : (fetchURL lib net addr method host).2 = .returned res (some e)) :
    res = [] ∧ ∃ cause, e = fetchError cause ∧
      (lib.urlParse addr = .error cause ∨
       (∃ url, lib.urlParse addr = .ok url ∧
          lib.newRequest method url.String = .error cause) ∨
       (∃ url req0, lib.urlParse addr = .ok url ∧
          lib.newRequest method url.String = .ok req0 ∧
          net { InsecureSkipVerify := true } { req0 with Host := host } = .error cause) ∨
       (∃ url req0 resp, lib.urlParse addr = .ok url ∧
          lib.newRequest method url.String = .ok req0 ∧
          net { InsecureSkipVerify := true } { req0 with Host := host } = .ok resp ∧
          resp.StatusCode = 200 ∧ resp.Body = .error cause)) := by
  rcases h1 : lib.urlParse addr with c | url
  · rw [fetchURL_parse_error h1] at h
    simp only [FetchOutcome.returned.injEq, Option.some.injEq] at h
    exact ⟨h.1.symm, c, h.2.symm, Or.inl rfl⟩
  rcases h2 : lib.newRequest method url.String with c | req0
  · rw [fetchURL_newRequest_error h1 h2] at h
    simp only [FetchOutcome.returned.injEq, Option.some.injEq] at h
    exact ⟨h.1.symm, c, h.2.symm, Or.inr (Or.inl ⟨url, rfl, h2⟩)⟩
  rcases h3 : net { InsecureSkipVerify := true } { req0 with Host := host } with c | resp
  · rw [fetchURL_do_error h1 h2 h3] at h
    simp only [FetchOutcome.returned.injEq, Option.some.injEq] at h
    exact ⟨h.1.symm, c, h.2.symm, Or.inr (Or.inr (Or.inl ⟨url, req0, rfl, h2, h3⟩))⟩
  by_cases h4 : resp.StatusCode = 200
  · rcases h5 : resp.Body with c | b
    · rw [fetchURL_read_error h1 h2 h3 h4 h5] at h
      rcases deferClose_outcome resp ([], some (fetchError c)) with hd | hd
      · rw [hd] at h; exact absurd h (by simp)
      · rw [hd] at h
        simp only [FetchOutcome.returned.injEq, Option.some.injEq] at h
        exact ⟨h.1.symm, c, h.2.symm,
          Or.inr (Or.inr (Or.inr ⟨url, req0, resp, rfl, h2, h3, h4, h5⟩))⟩
    · rw [fetchURL_read_ok h1 h2 h3 h4 h5] at h
      rcases deferClose_outcome resp (fmtInt 200 ++ sep ++ b, none) with hd | hd
      · rw [hd] at h; exact absurd h (by simp)
      · rw [hd] at h; exact absurd h (by simp)
  · rw [fetchURL_not_ok h1 h2 h3 h4] at h
    rcases deferClose_outcome resp (fmtInt resp.StatusCode ++ sep ++ [], none) with hd | hd
    · rw [hd] at h; exact absurd h (by simp)
    · rw [hd] at h; exact absurd h (by simp)

/-- A string `fetchURL` returns without an error is a status code and a body. -/
theorem fetchURL_ok_shape {lib : Lib} {net : Net} {addr method host res : GoString}
    (h : (fetchURL lib net addr method host).2 = .returned res none) :
    ∃ (c : Int) (b : GoString), res = fmtInt c ++ sep ++ b := by
  rcases fetchURL_outcome lib net addr method host with h1 | ⟨cause, h1⟩ | ⟨c, b, h1⟩
  · rw [h1] at h; exact absurd h (by simp)
  · rw [h1] at h; exact absurd h (by simp)
  · rw [h1] at h
    simp only [FetchOutcome.returned.injEq, and_true] at h
    exact ⟨c, b, h.symm⟩

theorem requests_deferClose (resp : Response) (out : GoString × Option GoError) :
    requests (deferClose resp out).1 = [] := by
  unfold deferClose
  split <;> simp [requests]

theorem requests_loopBody (lib : Lib) (net : Net) (job : Job) (wait : Duration) (n : Int) :
    requests (loopBody lib net job wait n).1 =
      requests (fetchURL lib net job.URL job.Method job.Host).1 := by
  rcases h : (fetchURL lib net job.URL job.Method job.Host).2 with ⟨res, _ | err⟩ | _
  · simp [loopBody_ok h, requests, requests_append]
  · simp [loopBody_err h, requests, requests_append]
  · simp [loopBody_fatal h, requests]

theorem requests_workerLoop_nil (lib : Lib) (net : Nat → Net) (job : Job) (wait : Duration)
    (h : ∀ m, requests (fetchURL lib (net m) job.URL job.Method job.Host).1 = []) :
    ∀ (fuel i : Nat) (n : Int), requests (workerLoop lib net job wait fuel i n).1 = [] := by
  intro fuel
  induction fuel with
  | zero => intro i n; simp [workerLoop_zero, requests]
  | succ fuel ih =>
    intro i n
    by_cases hc : n ≤ job.Count
    · by_cases hf : (fetchURL lib (net i) job.URL job.Method job.Host).2 = .fatal
      · simp [workerLoop_fatal hc hf, requests_loopBody, h]
      · simp [workerLoop_step hc hf, requests_append, requests_loopBody, h, ih]
    · simp [workerLoop_done hc, requests]

theorem requests_worker (lib : Lib) (net : Nat → Net) (job : Job) (wait : Duration)
    (fuel : Nat) :
    requests (worker lib net job wait fuel).1 =
      requests (workerLoop lib net job wait fuel 0 0).1 := by
  rw [worker_trace]
  split <;> simp [requests, requests_append]

/-! ## The claims about fetchURL -/

/-- C2, amended: for a response with status code `c` that `fetchURL` receives
without a transport error, whose body closes without error and, when
`c = 200`, is read without error as `b`: `fetchURL` returns `"<c> - <b>"`
with `b` unchanged when `c = 200` and `"<c> - "` when `c ≠ 200`, whatever the
body is and whether or not it could be read, and the error returned is nil. -/
theorem fetchURL_status_line (lib : Lib) (net : Net) (addr method host : GoString)
    (url : URL) (req0 : Request) (resp : Response) (b : GoString)
    (hparse : lib.urlParse addr = .ok url)
    (hreq : lib.newRequest method url.String = .ok req0)
    (hdo : net { InsecureSkipVerify := true } { req0 with Host := host } = .ok resp)
    (hbody : resp.StatusCode = 200 → resp.Body = .ok b) (hclose : resp.Close = none) :
    (fetchURL lib net addr method host).2 =
      .returned
        (if resp.StatusCode = 200 then fmtInt resp.StatusCode ++ ascii " - " ++ b
         else fmtInt resp.StatusCode ++ ascii " - ")
        none := by
  by_cases h4 : resp.StatusCode = 200
  · rw [fetchURL_read_ok hparse hreq hdo h4 (hbody h4)]
    simp [deferClose, hclose, h4, sep]
  · rw [fetchURL_not_ok hparse hreq hdo h4]
    simp [deferClose, hclose, h4, sep]

/-- C2, witness: a 200 with body `ok` gives `"200 - ok"`, and a 404 whose
body breaks off gives `"404 - "`. -/
theorem fetchURL_status_line_witness :
    (fetchURL sampleLib okNet (ascii "http://example.com/") (ascii "GET") []).2 =
      .returned (ascii "200 - ok") none ∧
    (fetchURL sampleLib truncatedNet (ascii "http://example.com/") (ascii "GET") []).2 =
      .returned (ascii "404 - ") none :=
  ⟨fetchURL_status_line sampleLib okNet (ascii "http://example.com/") (ascii "GET") []
    { Host := ascii "example.com", String := ascii "http://example.com/" }
    { Method := ascii "GET",
      URL := { Host := ascii "example.com", String := ascii "http://example.com/" },
      Host := ascii "example.com" }
    { StatusCode := 200, Body := .ok (ascii "ok"), Close := none } (ascii "ok")
    rfl rfl rfl (fun _ => rfl) rfl,
   fetchURL_status_line sampleLib truncatedNet (ascii "http://example.com/") (ascii "GET") []
    { Host := ascii "example.com", String := ascii "http://example.com/" }
    { Method := ascii "GET",
      URL := { Host := ascii "example.com", String := ascii "http://example.com/" },
      Host := ascii "example.com" }
    { StatusCode := 404, Body := .error (ascii "unexpected EOF"), Close := none } []
    rfl rfl rfl (fun h => absurd h (by decide)) rfl⟩

/-- C2 as stated fails: the server answers 101, no transport error occurs and
nothing is read, but closing the body fails; `fetchURL` then ends in
`log.Fatal` and does not return `"101 - "`. -/
theorem fetchURL_close_failure :
    fetchURL sampleLib switchingNet (ascii "http://example.com/") (ascii "GET") [] =
      ([.clientDo { InsecureSkipVerify := true }
          { Method := ascii "GET",
            URL := { Host := ascii "example.com", String := ascii "http://example.com/" },
            Host := [] },
        .bodyClose, .logFatal], .fatal) ∧
    (fetchURL sampleLib switchingNet (ascii "http://example.com/") (ascii "GET") []).2 ≠
      .returned (ascii "101 - ") none := by
  decide

/-- C5: for an address that parses, whatever the host value, the one request
`fetchURL` sends is the request `http.NewRequestWithContext` built from the
parsed URL, with its URL and method untouched and its `Host` field set to the
host value. With a non-empty host value the Host header is made from that
value alone; with an empty one it is made from the host of the URL alone, and
is the header of the request as it was built, whose `Host` field came from the
URL. -/
theorem fetchURL_request (lib : Lib) (net : Net) (addr method host : GoString)
    (url : URL) (req0 : Request)
    (hparse : lib.urlParse addr = .ok url)
    (hreq : lib.newRequest method url.String = .ok req0) :
    requests (fetchURL lib net addr method host).1 = [{ req0 with Host := host }] ∧
    ({ req0 with Host := host } : Request).URL = req0.URL ∧
    ({ req0 with Host := host } : Request).Method = req0.Method ∧
    ({ req0 with Host := host } : Request).Host = host ∧
    (∀ clean : GoString → Except GoString GoString, host ≠ [] →
      ({ req0 with Host := host } : Request).hostHeader clean = clean host) ∧
    (∀ clean : GoString → Except GoString GoString, host = [] →
      ({ req0 with Host := host } : Request).hostHeader clean = clean req0.URL.Host ∧
      (req0.Host = req0.URL.Host →
        ({ req0 with Host := host } : Request).hostHeader clean =
          req0.hostHeader clean)) := by
  refine ⟨?_, rfl, rfl, rfl, ?_, ?_⟩
  · rcases h3 : net { InsecureSkipVerify := true } { req0 with Host := host } with e | resp
    · simp [fetchURL_do_error hparse hreq h3, requests]
    by_cases h4 : resp.StatusCode = 200
    · rcases h5 : resp.Body with e | b
      · simp [fetchURL_read_error hparse hreq h3 h4 h5, requests, requests_deferClose]
      · simp [fetchURL_read_ok hparse hreq h3 h4 h5, requests, requests_deferClose]
    · simp [fetchURL_not_ok hparse hreq h3 h4, requests, requests_deferClose]
  · intro clean h; simp [Request.hostHeader, h]
  · intro clean h
    refine ⟨by simp [Request.hostHeader, h], ?_⟩
    intro h0
    simp only [Request.hostHeader, h, if_true, h0]
    split <;> rfl

/-- C5, witness: a host override on the sample address. -/
theorem fetchURL_request_witness :
    requests (fetchURL sampleLib okNet (ascii "http://example.com/") (ascii "GET")
        (ascii "virtual.test")).1 =
      [{ Method := ascii "GET",
         URL := { Host := ascii "example.com", String := ascii "http://example.com/" },
         Host := ascii "virtual.test" }] :=
  (fetchURL_request sampleLib okNet (ascii "http://example.com/") (ascii "GET")
    (ascii "virtual.test")
    { Host := ascii "example.com", String := ascii "http://example.com/" }
    { Method := ascii "GET",
      URL := { Host := ascii "example.com", String := ascii "http://example.com/" },
      Host := ascii "example.com" }
    rfl rfl).1

/-- C7: an error `fetchURL` returns comes with the empty string, wraps the
sentinel `errFetchingURL` and reads `"<cause> - error fetching url"`, the
cause being the URL parse, request construction, transport or body read
failure; the error the worker sends at counter `n` then reads
`"<n> - <cause> - error fetching url"` and wraps the same sentinel; and every
error in a run of the worker wraps that sentinel. -/
theorem fetch_errors_wrap_sentinel (lib : Lib) (net : Nat → Net) (job : Job)
    (wait : Duration) :
    (∀ (nt : Net) (res : GoString) (e : GoError),
      (fetchURL lib nt job.URL job.Method job.Host).2 = .returned res (some e) →
      res = [] ∧ errorsIs e errFetchingURL = true ∧
      ∃ cause,
        (lib.urlParse job.URL = .error cause ∨
         (∃ url, lib.urlParse job.URL = .ok url ∧
            lib.newRequest job.Method url.String = .error cause) ∨
         (∃ url req0, lib.urlParse job.URL = .ok url ∧
            lib.newRequest job.Method url.String = .ok req0 ∧
            nt { InsecureSkipVerify := true } { req0 with Host := job.Host } =
              .error cause) ∨
         (∃ url req0 resp, lib.urlParse job.URL = .ok url ∧
            lib.newRequest job.Method url.String = .ok req0 ∧
            nt { InsecureSkipVerify := true } { req0 with Host := job.Host } = .ok resp ∧
            resp.StatusCode = 200 ∧ resp.Body = .error cause)) ∧
        e.Error = cause ++ ascii " - error fetching url" ∧
        e.Unwrap = some errFetchingURL ∧
        ∀ n : Int, ∃ e2,
          results (loopBody lib nt job wait n).1 = [{ Message := [], Err := some e2 }] ∧
          e2.Error = fmtInt n ++ ascii " - " ++ cause ++ ascii " - error fetching url" ∧
          e2.Unwrap = some e ∧ errorsIs e2 errFetchingURL = true) ∧
    (∀ (fuel : Nat) (r : result) (e : GoError),
      r ∈ results (worker lib net job wait fuel).1 → r.Err = some e →
      errorsIs e errFetchingURL = true ∧
      ∃ (n : Int) (cause : GoString),
        e.Error = fmtInt n ++ ascii " - " ++ cause ++ ascii " - error fetching url") := by
  constructor
  · intro nt res e h
    obtain ⟨hres, cause, he, hc⟩ := fetchURL_err_cause h
    subst he
    refine ⟨hres, errorsIs_fetchError cause, cause, hc, fetchError_Error cause, rfl, ?_⟩
    intro n
    refine ⟨.wrapError (fmtInt n ++ sep ++ (fetchError cause).Error) (fetchError cause),
      ?_, ?_, rfl, errorsIs_wrap_fetchError _ _⟩
    · rw [results_loopBody, h]; rfl
    · show fmtInt n ++ sep ++ (fetchError cause).Error = _
      rw [fetchError_Error]
      simp [sep]
  · intro fuel r e hr he
    rw [results_worker] at hr
    obtain ⟨m, k, hk⟩ := mem_results_workerLoop lib net job wait fuel 0 0 r hr
    rcases hout : (fetchURL lib (net m) job.URL job.Method job.Host).2 with
      ⟨res, _ | err⟩ | _
    · rw [hout] at hk
      simp only [emitted, Option.some.injEq] at hk
      subst hk
      simp at he
    · obtain ⟨_, cause, hc, _⟩ := fetchURL_err_cause hout
      rw [hout] at hk
      simp only [emitted, Option.some.injEq] at hk
      subst hk
      simp only [Option.some.injEq] at he
      subst he hc
      refine ⟨errorsIs_wrap_fetchError _ _, k, cause, ?_⟩
      show fmtInt k ++ sep ++ (fetchError cause).Error = _
      rw [fetchError_Error]
      simp [sep]
    · rw [hout] at hk
      simp [emitted] at hk

/-- C7, witness: a refused connection gives an error that wraps the sentinel
and comes with the empty string; at counter 7 the worker sends it as
`"7 - connection refused - error fetching url"`. -/
theorem fetch_errors_wrap_sentinel_witness :
    ([] : GoString) = [] ∧
    errorsIs (fetchError (ascii "connection refused")) errFetchingURL = true ∧
    (results (loopBody sampleLib refusedNet (sampleJob 0) 5 7).1).map aggregate =
      [ascii "7 - connection refused - error fetching url"] :=
  ⟨((fetch_errors_wrap_sentinel sampleLib (fun _ => refusedNet) (sampleJob 0) 5).1
      refusedNet [] (fetchError (ascii "connection refused")) (by decide)).1,
   ((fetch_errors_wrap_sentinel sampleLib (fun _ => refusedNet) (sampleJob 0) 5).1
      refusedNet [] (fetchError (ascii "connection refused")) (by decide)).2.1,
   by decide⟩

/-! ## The claims about the worker -/

/-- C6: every result a worker sends has exactly one of message and error set:
either `Err` is non-nil and `Message` is empty, or `Err` is nil and `Message`
is not empty. -/
theorem result_exactly_one (lib : Lib) (net : Nat → Net) (job : Job) (wait : Duration)
    (fuel : Nat) (r : result) (hr : r ∈ results (worker lib net job wait fuel).1) :
    (r.Err ≠ none ∧ r.Message = []) ∨ (r.Err = none ∧ r.Message ≠ []) := by
  rw [results_worker] at hr
  obtain ⟨m, k, hk⟩ := mem_results_workerLoop lib net job wait fuel 0 0 r hr
  rcases hout : (fetchURL lib (net m) job.URL job.Method job.Host).2 with
    ⟨res, _ | err⟩ | _
  · rw [hout] at hk
    simp only [emitted, Option.some.injEq] at hk
    subst hk
    refine Or.inr ⟨rfl, ?_⟩
    have := sep_ne_nil
    simp [this]
  · rw [hout] at hk
    simp only [emitted, Option.some.injEq] at hk
    subst hk
    exact Or.inl ⟨by simp, rfl⟩
  · rw [hout] at hk
    simp [emitted] at hk

/-- C6, witness: the one result of a job with count 0 on a server that
answers 200. -/
theorem result_exactly_one_witness :
    ({ Message := ascii "0 - 200 - ok", Err := none } : result).Err = none ∧
    ({ Message := ascii "0 - 200 - ok", Err := none } : result).Message ≠ [] := by
  have h := result_exactly_one sampleLib (fun _ => okNet) (sampleJob 0) 5 3
    { Message := ascii "0 - 200 - ok", Err := none } (by decide)
  rcases h with h | h
  · exact absurd rfl h.1
  · exact h

/-- C10: a job whose count is negative makes no attempt: the worker logs its
line and signals completion, with no call of `fetchURL`, no result and no
sleep; the number of results is `max (count + 1) 0`. -/
theorem worker_negative_count (lib : Lib) (net : Nat → Net) (job : Job) (wait : Duration)
    (fuel : Nat) (h : job.Count < 0) :
    worker lib net job wait (fuel + 1) =
      ([.logInfo (fmtInt job.Count ++ sep ++ job.URL), .wgDone], .finished) ∧
    calls (worker lib net job wait (fuel + 1)).1 = 0 ∧
    results (worker lib net job wait (fuel + 1)).1 = [] ∧
    sleeps (worker lib net job wait (fuel + 1)).1 = [] ∧
    ((results (worker lib net job wait (fuel + 1)).1).length : Int) =
      max (job.Count + 1) 0 := by
  have hc : ¬ (0 : Int) ≤ job.Count := by omega
  have hw : worker lib net job wait (fuel + 1) =
      ([.logInfo (fmtInt job.Count ++ sep ++ job.URL), .wgDone], .finished) := by
    simp [worker, workerLoop_done hc]
  have hm : max (job.Count + 1) 0 = 0 := by omega
  simp [hw, calls, results, sleeps, hm]

/-- C10, witness: a job with count -3. -/
theorem worker_negative_count_witness :
    worker sampleLib (fun _ => okNet) (sampleJob (-3)) 5 1 =
      ([.logInfo (ascii "-3 - http://example.com/"), .wgDone], .finished) :=
  (worker_negative_count sampleLib (fun _ => okNet) (sampleJob (-3)) 5 0 (by decide)).1

/-- C3: for a job whose URL does not parse, with count `k ≥ 0`: every result
the worker sends has an empty message and an error that wraps the fetch error
made from the parse failure, so no message result is sent; no request is
handed to `client.Do`; and the first `k + 1` attempts each give such a
result. -/
theorem unparseable_url_always_fails (lib : Lib) (net : Nat → Net) (job : Job)
    (wait : Duration) (cause : GoString)
    (hparse : lib.urlParse job.URL = .error cause) (hC : job.Count ≤ maxInt) :
    (∀ (fuel : Nat) (r : result), r ∈ results (worker lib net job wait fuel).1 →
      r.Message = [] ∧
      ∃ e, r.Err = some e ∧ e.Unwrap = some (fetchError cause) ∧
        errorsIs (fetchError cause) errFetchingURL = true ∧
        errorsIs e errFetchingURL = true) ∧
    (∀ fuel : Nat, requests (worker lib net job wait fuel).1 = []) ∧
    (∀ fuel : Nat, (fuel : Int) ≤ job.Count + 1 →
      (results (worker lib net job wait fuel).1).length = fuel ∧
      calls (worker lib net job wait fuel).1 = fuel) := by
  have hfetch : ∀ m, fetchURL lib (net m) job.URL job.Method job.Host =
      ([], .returned [] (some (fetchError cause))) :=
    fun m => fetchURL_parse_error hparse (net m) job.Method job.Host
  refine ⟨?_, ?_, ?_⟩
  · intro fuel r hr
    rw [results_worker] at hr
    obtain ⟨m, k, hk⟩ := mem_results_workerLoop lib net job wait fuel 0 0 r hr
    rw [hfetch m] at hk
    simp only [emitted, Option.some.injEq] at hk
    subst hk
    exact ⟨rfl, _, rfl, rfl, errorsIs_fetchError cause, errorsIs_wrap_fetchError _ _⟩
  · intro fuel
    rw [requests_worker]
    exact requests_workerLoop_nil lib net job wait (fun m => by rw [hfetch m]; rfl) fuel 0 0
  · intro fuel hfuel
    rw [results_worker, calls_worker]
    have := workerLoop_progress lib net job wait hC fuel 0 0 minInt_le_zero (by omega)
      (fun m _ _ => by rw [hfetch m]; simp)
    exact this.2

/-- C3, witness: the job on `"::not a url::"` with count 2 sends three
results. -/
theorem unparseable_url_always_fails_witness :
    (results (worker sampleLib (fun _ => okNet) (badJob 2) 5 3).1).length = 3 :=
  ((unparseable_url_always_fails sampleLib (fun _ => okNet) (badJob 2) 5
    (ascii "missing protocol scheme") rfl (by decide)).2.2 3 (by decide)).1

/-- C8: for a job with count `k` and `j ≤ k`, the `j`-th result the worker
sends comes from the `j`-th call of `fetchURL` and carries the index `j`: after
a success it is the message `"<j> - <status> - <body>"`, after a failure the
error whose text is `"<j> - "` followed by the text of the fetch error; and
the `j`-th result is sent, given fuel for it, unless the process exits on the
way. -/
theorem result_index (lib : Lib) (net : Nat → Net) (job : Job) (wait : Duration)
    (hC : job.Count ≤ maxInt) (fuel j : Nat) (hj : (j : Int) ≤ job.Count) :
    (∀ r, (results (worker lib net job wait fuel).1)[j]? = some r →
      (∃ (c : Int) (b : GoString),
        (fetchURL lib (net j) job.URL job.Method job.Host).2 =
          .returned (fmtInt c ++ ascii " - " ++ b) none ∧
        r = { Message := fmtInt j ++ ascii " - " ++ (fmtInt c ++ ascii " - " ++ b),
              Err := none }) ∨
      (∃ (res : GoString) (err : GoError),
        (fetchURL lib (net j) job.URL job.Method job.Host).2 = .returned res (some err) ∧
        r = { Message := [],
              Err := some (.wrapError (fmtInt j ++ ascii " - " ++ err.Error) err) } ∧
        aggregate r = fmtInt j ++ ascii " - " ++ err.Error)) ∧
    ((∀ m, m ≤ j → (fetchURL lib (net m) job.URL job.Method job.Host).2 ≠ .fatal) →
      j < fuel → ∃ r, (results (worker lib net job wait fuel).1)[j]? = some r) := by
  constructor
  · intro r hr
    rw [results_worker] at hr
    have := (results_workerLoop_get lib net job wait fuel 0 0 j r minInt_le_zero
      (by omega) hr).1
    simp only [zero_add] at this
    rcases hout : (fetchURL lib (net j) job.URL job.Method job.Host).2 with
      ⟨res, _ | err⟩ | _
    · obtain ⟨c, b, hres⟩ := fetchURL_ok_shape hout
      rw [hout] at this
      simp only [emitted, Option.some.injEq] at this
      subst this hres
      exact Or.inl ⟨c, b, rfl, rfl⟩
    · rw [hout] at this
      simp only [emitted, Option.some.injEq] at this
      subst this
      exact Or.inr ⟨res, err, rfl, rfl, rfl⟩
    · rw [hout] at this
      simp [emitted] at this
  · intro hnf hfuel
    have := results_workerLoop_length lib net job wait hC fuel 0 0 j minInt_le_zero hfuel
      (by omega) (fun m _ hm => hnf m (by omega))
    rw [results_worker]
    exact ⟨_, List.getElem?_eq_getElem this⟩

/-- C8, witness: on a network that answers every other call, the result
number 1 of a job with count 2 is the error of the refused call, with index
1; the three lines logged are `"0 - 200 - ok"`,
`"1 - connection refused - error fetching url"` and `"2 - 200 - ok"`. -/
theorem result_index_witness :
    (∃ r, (results (worker sampleLib flakyNet (sampleJob 2) 5 4).1)[1]? = some r) ∧
    (results (worker sampleLib flakyNet (sampleJob 2) 5 4).1).map aggregate =
      [ascii "0 - 200 - ok", ascii "1 - connection refused - error fetching url",
       ascii "2 - 200 - ok"] :=
  ⟨(result_index sampleLib flakyNet (sampleJob 2) 5 (by decide) 4 1 (by decide)).2
    (by decide) (by decide), by decide⟩

/-- C1, amended: for a job with count `k`, `0 ≤ k` and `k` below the largest
`int`, and fetch outcomes of which none ends the process (each of the `k + 1`
calls returns, with or without an error), the worker terminates after exactly
`k + 1` calls of `fetchURL` and exactly `k + 1` results. -/
theorem worker_attempts (lib : Lib) (net : Nat → Net) (job : Job) (wait : Duration)
    (h0 : 0 ≤ job.Count) (hC : job.Count < maxInt)
    (hnf : ∀ m : Nat, (m : Int) ≤ job.Count →
      (fetchURL lib (net m) job.URL job.Method job.Host).2 ≠ .fatal)
    (fuel : Nat) (hfuel : job.Count + 1 < fuel) :
    (worker lib net job wait fuel).2 = .finished ∧
    ((results (worker lib net job wait fuel).1).length : Int) = job.Count + 1 ∧
    (calls (worker lib net job wait fuel).1 : Int) = job.Count + 1 := by
  rw [worker_status, results_worker, calls_worker]
  obtain ⟨h1, h2, h3⟩ := workerLoop_finishes lib net job wait hC fuel 0 0 minInt_le_zero
    (by omega) (fun m _ hm => hnf m (by omega))
  refine ⟨h1, ?_, ?_⟩
  · rw [h2]; omega
  · rw [h3]; omega

/-- C1, witness: a job with count 2 on a network that answers every other
call makes three calls and sends three results. -/
theorem worker_attempts_witness :
    (worker sampleLib flakyNet (sampleJob 2) 5 4).2 = .finished ∧
    ((results (worker sampleLib flakyNet (sampleJob 2) 5 4).1).length : Int) = 2 + 1 ∧
    (calls (worker sampleLib flakyNet (sampleJob 2) 5 4).1 : Int) = 2 + 1 :=
  worker_attempts sampleLib flakyNet (sampleJob 2) 5 (by decide) (by decide)
    (fun m _ => by
      unfold flakyNet
      split <;> decide)
    4 (by decide)

/-- C1 as stated fails. A job with count 0 whose one response fails to close
never sends its result: the process exits in `fetchURL`. And a job whose count
is the largest `int` never terminates: on an address that does not parse it
sends one result for every unit of fuel, so more than `k + 1` of them. -/
theorem worker_attempts_fail :
    (∀ fuel : Nat,
      results (worker sampleLib (fun _ => closeFailNet) (sampleJob 0) 5 fuel).1 = [] ∧
      (worker sampleLib (fun _ => closeFailNet) (sampleJob 0) 5 fuel).2 ≠ .finished ∧
      (worker sampleLib (fun _ => closeFailNet) (sampleJob 0) 5 (fuel + 1)).2 = .exited) ∧
    (∀ fuel : Nat,
      (worker sampleLib (fun _ => refusedNet) (badJob maxInt) 5 fuel).2 = .running ∧
      (results (worker sampleLib (fun _ => refusedNet) (badJob maxInt) 5 fuel).1).length =
        fuel) := by
  constructor
  · have hf : (fetchURL sampleLib closeFailNet (sampleJob 0).URL (sampleJob 0).Method
        (sampleJob 0).Host).2 = .fatal := by decide
    have hc : (0 : Int) ≤ (sampleJob 0).Count := by decide
    have hs : ∀ fuel : Nat,
        workerLoop sampleLib (fun _ => closeFailNet) (sampleJob 0) 5 (fuel + 1) 0 0 =
          ((loopBody sampleLib closeFailNet (sampleJob 0) 5 0).1, .exited) :=
      fun fuel => @workerLoop_fatal sampleLib (fun _ => closeFailNet) (sampleJob 0) 0 0 hc hf 5 fuel
    intro fuel
    refine ⟨?_, ?_, ?_⟩
    · rw [results_worker]
      cases fuel with
      | zero => rfl
      | succ fuel => rw [hs fuel, results_loopBody, hf]; rfl
    · rw [worker_status]
      cases fuel with
      | zero => simp [workerLoop_zero]
      | succ fuel => rw [hs fuel]; simp
    · rw [worker_status, hs fuel]
  · intro fuel
    rw [worker_status, results_worker]
    exact workerLoop_maxInt_runs sampleLib (fun _ => refusedNet) (badJob maxInt) 5
      (le_refl _)
      (fun _ => by
        show (fetchURL sampleLib refusedNet (badJob maxInt).URL (badJob maxInt).Method
          (badJob maxInt).Host).2 ≠ .fatal
        decide)
      fuel 0 0 zero_le_maxInt

/-! ## Pacing -/

theorem Paced.append {w : Duration} {a b : List Event} (ha : Paced w a) (hb : Paced w b) :
    Paced w (a ++ b) := by
  induction ha with
  | nil => simpa using hb
  | other e rest hs hd _ ih => exact Paced.other e _ hs hd ih
  | ok msg n rest _ ih => exact Paced.ok msg n _ ih
  | fail msg err n rest _ ih => exact Paced.fail msg err n _ ih

theorem paced_of_inFetch (w : Duration) {t : List Event}
    (h : ∀ e ∈ t, e.inFetch = true) : Paced w t := by
  induction t with
  | nil => exact Paced.nil
  | cons e t ih =>
    have he := h e (List.mem_cons_self _ _)
    refine Paced.other e t ?_ ?_ (ih (fun x hx => h x (List.mem_cons_of_mem _ hx)))
    · intro r hr; subst hr; simp [Event.inFetch] at he
    · intro d hd; subst hd; simp [Event.inFetch] at he

theorem paced_loopBody (lib : Lib) (net : Net) (job : Job) (wait : Duration) (n : Int) :
    Paced wait (loopBody lib net job wait n).1 := by
  have hf := paced_of_inFetch wait (fetchURL_inFetch lib net job.URL job.Method job.Host)
  have hcall : ∀ rest, Paced wait rest →
      Paced wait (.call job.URL job.Method job.Host :: rest) :=
    fun rest h => Paced.other _ _ (by simp) (by simp) h
  have hincr : Paced wait [.incr (wrapInt (n + 1))] :=
    Paced.other _ _ (by simp) (by simp) Paced.nil
  rcases h : (fetchURL lib net job.URL job.Method job.Host).2 with ⟨res, _ | err⟩ | _
  · rw [loopBody_ok h]
    exact hcall _ (hf.append (Paced.ok _ _ _ Paced.nil))
  · rw [loopBody_err h]
    exact hcall _ (hf.append (Paced.fail _ _ _ _ Paced.nil))
  · rw [loopBody_fatal h]
    exact hcall _ hf

theorem paced_workerLoop (lib : Lib) (net : Nat → Net) (job : Job) (wait : Duration) :
    ∀ (fuel i : Nat) (n : Int), Paced wait (workerLoop lib net job wait fuel i n).1 := by
  intro fuel
  induction fuel with
  | zero => intro i n; exact Paced.nil
  | succ fuel ih =>
    intro i n
    by_cases hc : n ≤ job.Count
    · by_cases hf : (fetchURL lib (net i) job.URL job.Method job.Host).2 = .fatal
      · rw [workerLoop_fatal hc hf]; exact paced_loopBody _ _ _ _ _
      · rw [workerLoop_step hc hf]; exact (paced_loopBody _ _ _ _ _).append (ih _ _)
    · rw [workerLoop_done hc]; exact Paced.nil

theorem paced_worker (lib : Lib) (net : Nat → Net) (job : Job) (wait : Duration)
    (fuel : Nat) : Paced wait (worker lib net job wait fuel).1 := by
  rw [worker_trace]
  refine Paced.other _ _ (by simp) (by simp) ((paced_workerLoop _ _ _ _ _ _ _).append ?_)
  split
  · exact Paced.other _ _ (by simp) (by simp) Paced.nil
  · exact Paced.nil

theorem getElem_opt_cons1 {α : Type} (a : α) (l : List α) (p k : Nat) :
    (a :: l)[p + 1 + k]? = l[p + k]? := by
  rw [show p + 1 + k = (p + k) + 1 by omega, List.getElem?_cons_succ]

theorem getElem_opt_cons2 {α : Type} (a b : α) (l : List α) (p k : Nat) :
    (a :: b :: l)[p + 2 + k]? = l[p + k]? := by
  rw [show p + 2 + k = (p + k) + 1 + 1 by omega, List.getElem?_cons_succ,
    List.getElem?_cons_succ]

theorem getElem_opt_cons3 {α : Type} (a b c : α) (l : List α) (p k : Nat) :
    (a :: b :: c :: l)[p + 3 + k]? = l[p + k]? := by
  rw [show p + 3 + k = (p + k) + 1 + 1 + 1 by omega, List.getElem?_cons_succ,
    List.getElem?_cons_succ, List.getElem?_cons_succ]

theorem Paced.after_ok {w : Duration} {t : List Event} (h : Paced w t) :
    ∀ (p : Nat) (r : result), t[p]? = some (.send r) → r.Err = none →
      t[p + 1]? = some (.sleep w) ∧ ∃ n, t[p + 2]? = some (.incr n) := by
  induction h with
  | nil => intro p r hp; simp at hp
  | other e rest hs hd _ ih =>
    intro p r hp hr
    cases p with
    | zero => simp at hp; exact absurd hp (hs r)
    | succ p =>
      rw [getElem_opt_cons1, getElem_opt_cons1]
      exact ih p r (by simpa using hp) hr
  | ok msg n rest _ ih =>
    intro p r hp hr
    match p with
    | 0 => exact ⟨by simp, n, by simp⟩
    | 1 => simp at hp
    | 2 => simp at hp
    | p + 3 =>
      rw [getElem_opt_cons3, getElem_opt_cons3]
      exact ih p r (by simpa using hp) hr
  | fail msg err n rest _ ih =>
    intro p r hp hr
    match p with
    | 0 => simp at hp; subst hp; simp at hr
    | 1 => simp at hp
    | p + 2 =>
      rw [getElem_opt_cons2, getElem_opt_cons2]
      exact ih p r (by simpa using hp) hr

theorem Paced.after_fail {w : Duration} {t : List Event} (h : Paced w t) :
    ∀ (p : Nat) (r : result), t[p]? = some (.send r) → r.Err ≠ none →
      ∃ n, t[p + 1]? = some (.incr n) := by
  induction h with
  | nil => intro p r hp; simp at hp
  | other e rest hs hd _ ih =>
    intro p r hp hr
    cases p with
    | zero => simp at hp; exact absurd hp (hs r)
    | succ p =>
      rw [getElem_opt_cons1]
      exact ih p r (by simpa using hp) hr
  | ok msg n rest _ ih =>
    intro p r hp hr
    match p with
    | 0 => simp at hp; subst hp; simp at hr
    | 1 => simp at hp
    | 2 => simp at hp
    | p + 3 =>
      rw [getElem_opt_cons3]
      exact ih p r (by simpa using hp) hr
  | fail msg err n rest _ ih =>
    intro p r hp hr
    match p with
    | 0 => exact ⟨n, by simp⟩
    | 1 => simp at hp
    | p + 2 =>
      rw [getElem_opt_cons2]
      exact ih p r (by simpa using hp) hr

theorem Paced.sleeps_eq {w : Duration} {t : List Event} (h : Paced w t) :
    sleeps t =
      List.replicate ((results t).filter (fun r => r.Err.isNone)).length w := by
  induction h with
  | nil => rfl
  | other e rest hs hd _ ih =>
    cases e with
    | send r => exact absurd rfl (hs r)
    | sleep d => exact absurd rfl (hd d)
    | _ => simpa [sleeps, results] using ih
  | ok msg n rest _ ih => simp [sleeps, results, ih, List.replicate_succ]
  | fail msg err n rest _ ih => simp [sleeps, results, ih]

/-- C4: in the trace of a worker, the send of a successful attempt is
followed at once by one sleep of the wait interval and then by the increment
of the counter; the send of a failed attempt is followed at once by the
increment, with no sleep; the sleeps are as many as the successful attempts,
each of the wait interval; and between the sends of two successful attempts
there is a sleep of the wait interval. -/
theorem worker_paced (lib : Lib) (net : Nat → Net) (job : Job) (wait : Duration)
    (fuel : Nat) :
    (∀ (p : Nat) (r : result),
      (worker lib net job wait fuel).1[p]? = some (.send r) → r.Err = none →
      (worker lib net job wait fuel).1[p + 1]? = some (.sleep wait) ∧
      ∃ n, (worker lib net job wait fuel).1[p + 2]? = some (.incr n)) ∧
    (∀ (p : Nat) (r : result),
      (worker lib net job wait fuel).1[p]? = some (.send r) → r.Err ≠ none →
      ∃ n, (worker lib net job wait fuel).1[p + 1]? = some (.incr n)) ∧
    sleeps (worker lib net job wait fuel).1 =
      List.replicate
        ((results (worker lib net job wait fuel).1).filter (fun r => r.Err.isNone)).length
        wait ∧
    (∀ (p q : Nat) (r r2 : result), p < q →
      (worker lib net job wait fuel).1[p]? = some (.send r) → r.Err = none →
      (worker lib net job wait fuel).1[q]? = some (.send r2) →
      ∃ m, p < m ∧ m < q ∧ (worker lib net job wait fuel).1[m]? = some (.sleep wait)) := by
  have hp := paced_worker lib net job wait fuel
  refine ⟨hp.after_ok, hp.after_fail, hp.sleeps_eq, ?_⟩
  intro p q r r2 hpq h1 hr h2
  have h3 := (hp.after_ok p r h1 hr).1
  refine ⟨p + 1, by omega, ?_, h3⟩
  rcases Nat.lt_or_ge (p + 1) q with h | h
  · exact h
  · have : q = p + 1 := by omega
    subst this
    rw [h3] at h2
    simp at h2

/-- C4, witness: with count 2 on a network that answers every other call,
the two successful attempts give two sleeps of the wait interval. -/
theorem worker_paced_witness :
    sleeps (worker sampleLib flakyNet (sampleJob 2) 5 4).1 = [5, 5] :=
  (worker_paced sampleLib flakyNet (sampleJob 2) 5 4).2.2.1.trans (by decide)

/-! ## The concurrent run -/

theorem weigh_nil (g : Event → Nat) : weigh g [] = 0 := rfl

theorem weigh_cons (g : Event → Nat) (e : Event) (t : List Event) :
    weigh g (e :: t) = g e + weigh g t := by
  simp [weigh]

theorem weigh_append (g : Event → Nat) (a b : List Event) :
    weigh g (a ++ b) = weigh g a + weigh g b := by
  simp [weigh]

theorem stepRun_some {ts ts2 : List (List Event)} {i : Nat} {e : Event}
    (h : stepRun ts i = some (e, ts2)) :
    ∃ r, ts[i]? = some (e :: r) ∧ ts2 = ts.set i r := by
  unfold stepRun at h
  split at h
  · next e2 r heq =>
    simp only [Option.some.injEq, Prod.mk.injEq] at h
    exact ⟨r, by rw [heq, h.1], h.2.symm⟩
  · exact absurd h (by simp)

theorem eventsOf_cons_self (i : Nat) (e : Event) (log : List (Nat × Event)) :
    eventsOf i ((i, e) :: log) = e :: eventsOf i log := by
  simp [eventsOf]

theorem eventsOf_cons_ne {i k : Nat} (h : k ≠ i) (e : Event) (log : List (Nat × Event)) :
    eventsOf k ((i, e) :: log) = eventsOf k log := by
  have : ¬ i = k := fun h2 => h h2.symm
  simp [eventsOf, List.filter_cons, this]

/-- In a concurrent run every goroutine does its own events in its own
order: what it did, followed by what it has left, is its trace. -/
theorem runSchedule_split :
    ∀ (sched : List Nat) (ts : List (List Event)) (log : List (Nat × Event))
      (rest : List (List Event)), runSchedule ts sched = some (log, rest) →
      ∀ (k : Nat) (t : List Event), ts[k]? = some t →
        ∃ r, rest[k]? = some r ∧ eventsOf k log ++ r = t := by
  intro sched
  induction sched with
  | nil =>
    intro ts log rest h k t hk
    simp only [runSchedule, Option.some.injEq, Prod.mk.injEq] at h
    obtain ⟨h1, h2⟩ := h
    subst h1 h2
    exact ⟨t, hk, rfl⟩
  | cons i sched ih =>
    intro ts log rest h k t hk
    rw [runSchedule] at h
    rcases hs : stepRun ts i with _ | ⟨e, ts2⟩
    · rw [hs] at h; exact absurd h (by simp)
    rw [hs] at h
    obtain ⟨r0, hi, hset⟩ := stepRun_some hs
    have hlen : i < ts.length := by
      rcases List.getElem?_eq_some.mp hi with ⟨hlt, _⟩
      exact hlt
    have hk2 : (k = i → t = e :: r0 ∧ ts2[k]? = some r0) ∧
        (k ≠ i → ts2[k]? = some t) := by
      refine ⟨?_, ?_⟩
      · intro hki
        subst hki
        rw [hi] at hk
        simp only [Option.some.injEq] at hk
        exact ⟨hk.symm, by rw [hset]; exact List.getElem?_set_self hlen⟩
      · intro hki
        rw [hset, List.getElem?_set_ne (fun h2 => hki h2.symm)]
        exact hk
    simp only at h
    by_cases hfatal : e = .logFatal
    · rw [if_pos hfatal] at h
      by_cases hnil : sched = []
      · rw [if_pos hnil] at h
        simp only [Option.some.injEq, Prod.mk.injEq] at h
        obtain ⟨h1, h2⟩ := h
        subst h1 h2
        by_cases hki : k = i
        · obtain ⟨ht, hr⟩ := hk2.1 hki
          subst hki
          exact ⟨r0, hr, by rw [ht, eventsOf_cons_self]; rfl⟩
        · exact ⟨t, hk2.2 hki, by rw [eventsOf_cons_ne hki]; rfl⟩
      · rw [if_neg hnil] at h; exact absurd h (by simp)
    · rw [if_neg hfatal] at h
      rcases hr : runSchedule ts2 sched with _ | ⟨log2, rest2⟩
      · rw [hr] at h; exact absurd h (by simp)
      rw [hr] at h
      simp only [Option.some.injEq, Prod.mk.injEq] at h
      obtain ⟨h1, h2⟩ := h
      subst h1 h2
      by_cases hki : k = i
      · obtain ⟨ht, hr0⟩ := hk2.1 hki
        obtain ⟨r, hr1, hr2⟩ := ih ts2 log2 rest2 hr k r0 hr0
        subst hki
        exact ⟨r, hr1, by rw [ht, eventsOf_cons_self, List.cons_append, hr2]⟩
      · obtain ⟨r, hr1, hr2⟩ := ih ts2 log2 rest2 hr k t (hk2.2 hki)
        exact ⟨r, hr1, by rw [eventsOf_cons_ne hki]; exact hr2⟩

theorem runSchedule_length :
    ∀ (sched : List Nat) (ts : List (List Event)) (log : List (Nat × Event))
      (rest : List (List Event)), runSchedule ts sched = some (log, rest) →
      rest.length = ts.length ∧ ∀ p ∈ log, p.1 < ts.length := by
  intro sched
  induction sched with
  | nil =>
    intro ts log rest h
    simp only [runSchedule, Option.some.injEq, Prod.mk.injEq] at h
    obtain ⟨h1, h2⟩ := h
    subst h1 h2
    simp
  | cons i sched ih =>
    intro ts log rest h
    rw [runSchedule] at h
    rcases hs : stepRun ts i with _ | ⟨e, ts2⟩
    · rw [hs] at h; exact absurd h (by simp)
    rw [hs] at h
    obtain ⟨r0, hi, hset⟩ := stepRun_some hs
    have hlen : i < ts.length := by
      rcases List.getElem?_eq_some.mp hi with ⟨hlt, _⟩
      exact hlt
    have hl2 : ts2.length = ts.length := by rw [hset, List.length_set]
    simp only at h
    by_cases hfatal : e = .logFatal
    · rw [if_pos hfatal] at h
      by_cases hnil : sched = []
      · rw [if_pos hnil] at h
        simp only [Option.some.injEq, Prod.mk.injEq] at h
        obtain ⟨h1, h2⟩ := h
        subst h1 h2
        exact ⟨hl2, by simpa using hlen⟩
      · rw [if_neg hnil] at h; exact absurd h (by simp)
    · rw [if_neg hfatal] at h
      rcases hr : runSchedule ts2 sched with _ | ⟨log2, rest2⟩
      · rw [hr] at h; exact absurd h (by simp)
      rw [hr] at h
      simp only [Option.some.injEq, Prod.mk.injEq] at h
      obtain ⟨h1, h2⟩ := h
      subst h1 h2
      obtain ⟨ih1, ih2⟩ := ih ts2 log2 rest2 hr
      refine ⟨by rw [ih1, hl2], ?_⟩
      intro p hp
      rcases List.mem_cons.mp hp with hp | hp
      · subst hp; exact hlen
      · rw [← hl2]; exact ih2 p hp

theorem sum_weigh_set (g : Event → Nat) :
    ∀ (ts : List (List Event)) (i : Nat) (e : Event) (r : List Event),
      ts[i]? = some (e :: r) →
      ((ts.set i r).map (weigh g)).sum + g e = (ts.map (weigh g)).sum := by
  intro ts
  induction ts with
  | nil => intro i e r h; simp at h
  | cons t ts ih =>
    intro i e r h
    cases i with
    | zero =>
      simp only [List.getElem?_cons_zero, Option.some.injEq] at h
      subst h
      simp only [List.set_cons_zero, List.map_cons, List.sum_cons, weigh_cons]
      omega
    | succ i =>
      simp only [List.getElem?_cons_succ] at h
      have := ih i e r h
      simp only [List.set_cons_succ, List.map_cons, List.sum_cons]
      omega

/-- Nothing is made or lost in a concurrent run: the weight of what happened
and of what is left is the weight of the traces. -/
theorem runSchedule_weigh (g : Event → Nat) :
    ∀ (sched : List Nat) (ts : List (List Event)) (log : List (Nat × Event))
      (rest : List (List Event)), runSchedule ts sched = some (log, rest) →
      weigh g (log.map Prod.snd) + (rest.map (weigh g)).sum = (ts.map (weigh g)).sum := by
  intro sched
  induction sched with
  | nil =>
    intro ts log rest h
    simp only [runSchedule, Option.some.injEq, Prod.mk.injEq] at h
    obtain ⟨h1, h2⟩ := h
    subst h1 h2
    simp [weigh_nil]
  | cons i sched ih =>
    intro ts log rest h
    rw [runSchedule] at h
    rcases hs : stepRun ts i with _ | ⟨e, ts2⟩
    · rw [hs] at h; exact absurd h (by simp)
    rw [hs] at h
    obtain ⟨r0, hi, hset⟩ := stepRun_some hs
    have hsum := sum_weigh_set g ts i e r0 hi
    rw [← hset] at hsum
    simp only at h
    by_cases hfatal : e = .logFatal
    · rw [if_pos hfatal] at h
      by_cases hnil : sched = []
      · rw [if_pos hnil] at h
        simp only [Option.some.injEq, Prod.mk.injEq] at h
        obtain ⟨h1, h2⟩ := h
        subst h1 h2
        simp only [List.map_cons, List.map_nil, weigh_cons, weigh_nil]
        omega
      · rw [if_neg hnil] at h; exact absurd h (by simp)
    · rw [if_neg hfatal] at h
      rcases hr : runSchedule ts2 sched with _ | ⟨log2, rest2⟩
      · rw [hr] at h; exact absurd h (by simp)
      rw [hr] at h
      simp only [Option.some.injEq, Prod.mk.injEq] at h
      obtain ⟨h1, h2⟩ := h
      subst h1 h2
      have := ih ts2 log2 rest2 hr
      simp only [List.map_cons, weigh_cons]
      omega

theorem doneCount_eq (log : List (Nat × Event)) :
    doneCount log = weigh isDone (log.map Prod.snd) := by
  induction log with
  | nil => rfl
  | cons p log ih =>
    obtain ⟨i, e⟩ := p
    cases e <;> simp +arith [doneCount, weigh_cons, isDone, ih]

theorem length_received (log : List (Nat × Event)) :
    (received log).length = weigh isSend (log.map Prod.snd) := by
  induction log with
  | nil => rfl
  | cons p log ih =>
    obtain ⟨i, e⟩ := p
    cases e <;> simp +arith [received, weigh_cons, isSend, ih]

theorem length_results (t : List Event) : (results t).length = weigh isSend t := by
  induction t with
  | nil => rfl
  | cons e t ih => cases e <;> simp +arith [results, weigh_cons, isSend, ih]

theorem receivedFrom_eq (i : Nat) (log : List (Nat × Event)) :
    receivedFrom i log = results (eventsOf i log) := by
  induction log with
  | nil => rfl
  | cons p log ih =>
    obtain ⟨k, e⟩ := p
    unfold receivedFrom eventsOf at ih ⊢
    by_cases hk : k = i
    · cases e <;> simp [received, results, List.filter_cons, hk, ih]
    · cases e <;> simp [received, results, List.filter_cons, hk, ih]

theorem weigh_isDone_of_inFetch {t : List Event} (h : ∀ e ∈ t, e.inFetch = true) :
    weigh isDone t = 0 := by
  induction t with
  | nil => rfl
  | cons e t ih =>
    have he := h e (List.mem_cons_self _ _)
    have ht := ih (fun x hx => h x (List.mem_cons_of_mem _ hx))
    cases e <;> simp_all [weigh_cons, isDone, Event.inFetch]

theorem weigh_isDone_loopBody (lib : Lib) (net : Net) (job : Job) (wait : Duration)
    (n : Int) : weigh isDone (loopBody lib net job wait n).1 = 0 := by
  have hf := weigh_isDone_of_inFetch (fetchURL_inFetch lib net job.URL job.Method job.Host)
  rcases h : (fetchURL lib net job.URL job.Method job.Host).2 with ⟨res, _ | err⟩ | _
  · simp [loopBody_ok h, weigh_cons, weigh_append, weigh_nil, isDone, hf]
  · simp [loopBody_err h, weigh_cons, weigh_append, weigh_nil, isDone, hf]
  · simp [loopBody_fatal h, weigh_cons, isDone, hf]

theorem weigh_isDone_workerLoop (lib : Lib) (net : Nat → Net) (job : Job)
    (wait : Duration) :
    ∀ (fuel i : Nat) (n : Int), weigh isDone (workerLoop lib net job wait fuel i n).1 = 0 := by
  intro fuel
  induction fuel with
  | zero => intro i n; rfl
  | succ fuel ih =>
    intro i n
    by_cases hc : n ≤ job.Count
    · by_cases hf : (fetchURL lib (net i) job.URL job.Method job.Host).2 = .fatal
      · simp [workerLoop_fatal hc hf, weigh_isDone_loopBody]
      · simp [workerLoop_step hc hf, weigh_append, weigh_isDone_loopBody, ih]
    · simp [workerLoop_done hc, weigh_nil]

theorem weigh_isDone_worker (lib : Lib) (net : Nat → Net) (job : Job) (wait : Duration)
    (fuel : Nat) :
    weigh isDone (worker lib net job wait fuel).1 =
      if (worker lib net job wait fuel).2 = .finished then 1 else 0 := by
  rw [worker_trace, worker_status]
  split <;>
    simp [weigh_cons, weigh_append, weigh_nil, isDone, weigh_isDone_workerLoop]

theorem sum_le_length {l : List Nat} (h : ∀ x ∈ l, x ≤ 1) :
    l.sum ≤ l.length ∧ (l.sum = l.length → ∀ x ∈ l, x = 1) := by
  induction l with
  | nil => simp
  | cons a l ih =>
    have ha := h a (List.mem_cons_self _ _)
    obtain ⟨ih1, ih2⟩ := ih (fun x hx => h x (List.mem_cons_of_mem _ hx))
    simp only [List.sum_cons, List.length_cons]
    refine ⟨by omega, ?_⟩
    intro heq x hx
    rcases List.mem_cons.mp hx with hx | hx
    · subst hx; omega
    · exact ih2 (by omega) x hx

theorem processURLs_getElem (lib : Lib) (net : Nat → Nat → Net) (cfg : configs)
    (fuel i : Nat) :
    ((processURLs lib net cfg fuel).map Prod.fst)[i]? =
      (cfg.Job[i]?).map (fun job => (worker lib (net i) job cfg.Wait fuel).1) := by
  simp only [processURLs, List.getElem?_map, List.getElem?_enum, Option.map_map]
  rfl

theorem processURLs_length (lib : Lib) (net : Nat → Nat → Net) (cfg : configs)
    (fuel : Nat) :
    ((processURLs lib net cfg fuel).map Prod.fst).length = cfg.Job.length := by
  simp [processURLs]

/-- A suffix without `wg.Done()` of a trace that ends in `wg.Done()` is empty. -/
theorem suffix_nil_of_done {a r body : List Event}
    (h : a ++ r = body ++ [.wgDone]) (hr : weigh isDone r = 0) : r = [] := by
  rcases List.eq_nil_or_concat r with h0 | ⟨r2, z, h0⟩
  · exact h0
  · subst h0
    rw [List.concat_eq_append, ← List.append_assoc] at h
    have := (List.append_inj' h (by simp)).2
    simp only [List.cons.injEq, and_true] at this
    subst this
    simp [weigh_append, weigh_cons, weigh_nil, isDone] at hr

theorem mem_received {i : Nat} {r : result} {log : List (Nat × Event)}
    (h : (i, r) ∈ received log) : (i, Event.send r) ∈ log := by
  induction log with
  | nil => simp [received] at h
  | cons p log ih =>
    obtain ⟨k, e⟩ := p
    cases e with
    | send r2 =>
      simp only [received, List.mem_cons, Prod.mk.injEq] at h
      rcases h with ⟨h1, h2⟩ | h
      · subst h1 h2; exact List.mem_cons_self _ _
      · exact List.mem_cons_of_mem _ (ih h)
    | _ => exact List.mem_cons_of_mem _ (ih (by simpa [received] using h))

/-- Once the wait group is at zero, every worker has finished and has nothing
left to do. -/
theorem joined_all_done (lib : Lib) (net : Nat → Nat → Net) (cfg : configs)
    (fuel : Nat) (sched : List Nat) (log : List (Nat × Event)) (rest : List (List Event))
    (hrun : runSchedule ((processURLs lib net cfg fuel).map Prod.fst) sched =
      some (log, rest))
    (hjoin : wgCounter cfg log = 0) :
    ∀ i job, cfg.Job[i]? = some job →
      (worker lib (net i) job cfg.Wait fuel).2 = .finished ∧
      rest[i]? = some [] ∧
      eventsOf i log = (worker lib (net i) job cfg.Wait fuel).1 := by
  have hdone : doneCount log = cfg.Job.length := by
    unfold wgCounter at hjoin; omega
  have hw := runSchedule_weigh isDone sched _ log rest hrun
  rw [← doneCount_eq, hdone] at hw
  have hmem : ∀ t ∈ (processURLs lib net cfg fuel).map Prod.fst,
      ∃ i job, t = (worker lib (net i) job cfg.Wait fuel).1 := by
    intro t ht
    simp only [processURLs, List.map_map, List.mem_map] at ht
    obtain ⟨p, _, hp⟩ := ht
    exact ⟨p.1, p.2, hp.symm⟩
  have hle := sum_le_length
    (l := ((processURLs lib net cfg fuel).map Prod.fst).map (weigh isDone)) (by
      intro x hx
      obtain ⟨t, ht, hxt⟩ := List.mem_map.mp hx
      obtain ⟨i, job, hij⟩ := hmem t ht
      rw [← hxt, hij, weigh_isDone_worker]
      split <;> omega)
  rw [List.length_map, processURLs_length] at hle
  have hrest0 : (rest.map (weigh isDone)).sum = 0 := by omega
  have hts1 := hle.2 (by omega)
  intro i job hi
  have hti : ((processURLs lib net cfg fuel).map Prod.fst)[i]? =
      some (worker lib (net i) job cfg.Wait fuel).1 := by
    rw [processURLs_getElem, hi]; rfl
  have hfin : (worker lib (net i) job cfg.Wait fuel).2 = .finished := by
    have h1 := hts1 _ (List.mem_map.mpr ⟨_, List.mem_iff_getElem?.mpr ⟨i, hti⟩, rfl⟩)
    rw [weigh_isDone_worker] at h1
    by_contra hne
    rw [if_neg hne] at h1
    exact absurd h1 (by decide)
  obtain ⟨r, hr1, hr2⟩ := runSchedule_split sched _ log rest hrun i _ hti
  have hr0 : weigh isDone r = 0 :=
    List.sum_eq_zero_iff.mp hrest0 _
      (List.mem_map.mpr ⟨r, List.mem_iff_getElem?.mpr ⟨i, hr1⟩, rfl⟩)
  have htr : (worker lib (net i) job cfg.Wait fuel).1 =
      (.logInfo (fmtInt job.Count ++ sep ++ job.URL) ::
        (workerLoop lib (net i) job cfg.Wait fuel 0 0).1) ++ [.wgDone] := by
    rw [worker_trace, ← worker_status, if_pos hfin]
  have hnil : r = [] := suffix_nil_of_done (hr2.trans htr) hr0
  subst hnil
  exact ⟨hfin, hr1, by simpa using hr2⟩

/-- When every worker runs to its end, a run that leaves nothing to do has
brought the wait group to zero. -/
theorem exhausted_joined (lib : Lib) (net : Nat → Nat → Net) (cfg : configs)
    (fuel : Nat) (sched : List Nat) (log : List (Nat × Event)) (rest : List (List Event))
    (hrun : runSchedule ((processURLs lib net cfg fuel).map Prod.fst) sched =
      some (log, rest))
    (hfin : ∀ i job, cfg.Job[i]? = some job →
      (worker lib (net i) job cfg.Wait fuel).2 = .finished)
    (hrest : ∀ r ∈ rest, r = []) :
    wgCounter cfg log = 0 := by
  have hw := runSchedule_weigh isDone sched _ log rest hrun
  have hr0 : (rest.map (weigh isDone)).sum = 0 := by
    apply List.sum_eq_zero_iff.mpr
    intro x hx
    obtain ⟨r, hr, hxr⟩ := List.mem_map.mp hx
    rw [← hxr, hrest r hr]
    rfl
  have hts : ((processURLs lib net cfg fuel).map Prod.fst).map (weigh isDone) =
      cfg.Job.map (fun _ => 1) := by
    apply List.ext_getElem?
    intro k
    rw [List.getElem?_map, processURLs_getElem, List.getElem?_map, Option.map_map]
    rcases hk : cfg.Job[k]? with _ | job
    · rfl
    · simp only [Option.map_some', Function.comp_apply, Option.some.injEq]
      rw [weigh_isDone_worker, if_pos (hfin k job hk)]
  have hsum : (cfg.Job.map (fun _ => 1)).sum = cfg.Job.length := by
    induction cfg.Job with
    | nil => rfl
    | cons a l ih => simp only [List.map_cons, List.sum_cons, List.length_cons, ih]; omega
  rw [hts, hsum, hr0, ← doneCount_eq] at hw
  unfold wgCounter
  omega

/-- C9, amended: for jobs with non-negative counts and every schedule of
their workers, the results the aggregator has received from a worker are, in
order, the first results of that worker, each from a worker of the
configuration; and once the wait group is at zero they are all of them,
`count + 1` for each worker, so the total is the sum of the `count + 1`: no
result is lost or duplicated before `wg.Wait` returns. The wait group is at
zero after every run that leaves nothing to do, when the counts are below the
largest `int` and no call ends the process. -/
theorem received_is_interleaving (lib : Lib) (net : Nat → Nat → Net) (cfg : configs)
    (fuel : Nat) (sched : List Nat) (log : List (Nat × Event)) (rest : List (List Event))
    (hcounts : ∀ job ∈ cfg.Job, 0 ≤ job.Count ∧ job.Count ≤ maxInt)
    (hrun : runSchedule ((processURLs lib net cfg fuel).map Prod.fst) sched =
      some (log, rest)) :
    (∀ p ∈ received log, p.1 < cfg.Job.length) ∧
    (∀ i job, cfg.Job[i]? = some job →
      receivedFrom i log <+: results (worker lib (net i) job cfg.Wait fuel).1) ∧
    (wgCounter cfg log = 0 →
      (∀ i job, cfg.Job[i]? = some job →
        receivedFrom i log = results (worker lib (net i) job cfg.Wait fuel).1 ∧
        ((receivedFrom i log).length : Int) = job.Count + 1) ∧
      (received log).length = (cfg.Job.map (fun job => (job.Count + 1).toNat)).sum) ∧
    ((∀ job ∈ cfg.Job, job.Count < maxInt ∧ job.Count + 1 < fuel) →
      (∀ i job (m : Nat), cfg.Job[i]? = some job →
        (fetchURL lib (net i m) job.URL job.Method job.Host).2 ≠ .fatal) →
      (∀ r ∈ rest, r = []) → wgCounter cfg log = 0) := by
  have hgetW : ∀ i job, cfg.Job[i]? = some job →
      ((processURLs lib net cfg fuel).map Prod.fst)[i]? =
        some (worker lib (net i) job cfg.Wait fuel).1 := by
    intro i job hi
    rw [processURLs_getElem, hi]; rfl
  refine ⟨?_, ?_, ?_, ?_⟩
  · intro p hp
    have := (runSchedule_length sched _ log rest hrun).2 _
      (mem_received (i := p.1) (r := p.2) hp)
    rwa [processURLs_length] at this
  · intro i job hi
    obtain ⟨r, _, hr2⟩ := runSchedule_split sched _ log rest hrun i _ (hgetW i job hi)
    rw [receivedFrom_eq, ← hr2, results_append]
    exact ⟨_, rfl⟩
  · intro hjoin
    have hall := joined_all_done lib net cfg fuel sched log rest hrun hjoin
    have hcount : ∀ i job, cfg.Job[i]? = some job →
        (results (worker lib (net i) job cfg.Wait fuel).1).length =
          (job.Count + 1).toNat := by
      intro i job hi
      obtain ⟨hfin, _, _⟩ := hall i job hi
      have hC := (hcounts job (List.mem_iff_getElem?.mpr ⟨i, hi⟩)).2
      rw [worker_status] at hfin
      have := (workerLoop_finished_count lib (net i) job cfg.Wait hC fuel 0 0
        minInt_le_zero zero_le_maxInt hfin).1
      rw [results_worker, this]
      simp
    refine ⟨?_, ?_⟩
    · intro i job hi
      obtain ⟨_, _, hev⟩ := hall i job hi
      have h0 := (hcounts job (List.mem_iff_getElem?.mpr ⟨i, hi⟩)).1
      rw [receivedFrom_eq, hev]
      refine ⟨rfl, ?_⟩
      rw [hcount i job hi]
      omega
    · have hw := runSchedule_weigh isSend sched _ log rest hrun
      have hrest : (rest.map (weigh isSend)).sum = 0 := by
        apply List.sum_eq_zero_iff.mpr
        intro x hx
        obtain ⟨r, hr, hxr⟩ := List.mem_map.mp hx
        obtain ⟨k, hk⟩ := List.mem_iff_getElem?.mp hr
        have hklt : k < cfg.Job.length := by
          rcases List.getElem?_eq_some.mp hk with ⟨hlt, _⟩
          rw [(runSchedule_length sched _ log rest hrun).1, processURLs_length] at hlt
          exact hlt
        obtain ⟨_, hr1, _⟩ := hall k cfg.Job[k] (List.getElem?_eq_getElem hklt)
        rw [hk] at hr1
        simp only [Option.some.injEq] at hr1
        rw [← hxr, hr1]
        rfl
      have hts : ((processURLs lib net cfg fuel).map Prod.fst).map (weigh isSend) =
          cfg.Job.map (fun job => (job.Count + 1).toNat) := by
        apply List.ext_getElem?
        intro k
        rw [List.getElem?_map, processURLs_getElem, List.getElem?_map, Option.map_map]
        rcases hk : cfg.Job[k]? with _ | job
        · rfl
        · simp only [Option.map_some', Function.comp_apply, Option.some.injEq]
          rw [← length_results]
          exact hcount k job hk
      rw [length_received]
      rw [hts] at hw
      omega
  · intro hlt hnf hrest
    refine exhausted_joined lib net cfg fuel sched log rest hrun ?_ hrest
    intro i job hi
    have hmem := List.mem_iff_getElem?.mpr ⟨i, hi⟩
    have h0 := (hcounts job hmem).1
    obtain ⟨h1, h2⟩ := hlt job hmem
    rw [worker_status]
    exact (workerLoop_finishes lib (net i) job cfg.Wait h1 fuel 0 0 minInt_le_zero
      (by omega) (fun m _ _ => hnf i job m hi)).1

/-- C9, witness: the jobs with counts 0 and 2, run to the join, give four
results. -/
theorem received_is_interleaving_witness :
    wgCounter sampleConfigs sampleRun.1 = 0 ∧ (received sampleRun.1).length = 4 :=
  ⟨by decide,
   ((received_is_interleaving sampleLib (fun _ _ => okNet) sampleConfigs 5 sampleSchedule
      sampleRun.1 sampleRun.2 (by decide) (by decide)).2.2.1 (by decide)).2⟩

theorem workerLoop_parse_error_no_fatal (lib : Lib) (net : Nat → Net) (job : Job)
    (wait : Duration) (cause : GoString) (hparse : lib.urlParse job.URL = .error cause) :
    ∀ (fuel i : Nat) (n : Int), ∀ e ∈ (workerLoop lib net job wait fuel i n).1,
      e ≠ .logFatal := by
  have hfetch : ∀ m, fetchURL lib (net m) job.URL job.Method job.Host =
      ([], .returned [] (some (fetchError cause))) :=
    fun m => fetchURL_parse_error hparse (net m) job.Method job.Host
  intro fuel
  induction fuel with
  | zero => intro i n e he; simp [workerLoop_zero] at he
  | succ fuel ih =>
    intro i n e he
    by_cases hc : n ≤ job.Count
    · have hf : (fetchURL lib (net i) job.URL job.Method job.Host).2 ≠ .fatal := by
        rw [hfetch i]; simp
      have hb : (fetchURL lib (net i) job.URL job.Method job.Host).2 =
          .returned [] (some (fetchError cause)) := by rw [hfetch i]
      rw [workerLoop_step hc hf, loopBody_err hb, hfetch i] at he
      simp only [List.cons_append, List.nil_append, List.mem_cons, List.mem_append] at he
      rcases he with he | he | he | he
      · subst he; simp
      · subst he; simp
      · subst he; simp
      · exact ih _ _ e he
    · simp [workerLoop_done hc] at he

theorem worker_parse_error_no_fatal (lib : Lib) (net : Nat → Net) (job : Job)
    (wait : Duration) (cause : GoString) (hparse : lib.urlParse job.URL = .error cause)
    (fuel : Nat) : ∀ e ∈ (worker lib net job wait fuel).1, e ≠ .logFatal := by
  intro e he
  rw [worker_trace] at he
  simp only [List.cons_append, List.mem_cons, List.mem_append] at he
  rcases he with he | he | he
  · subst he; simp
  · exact workerLoop_parse_error_no_fatal lib net job wait cause hparse fuel 0 0 e he
  · by_cases hfin : (workerLoop lib net job wait fuel 0 0).2 = .finished
    · rw [if_pos hfin, List.mem_singleton] at he
      subst he; simp
    · rw [if_neg hfin] at he
      simp at he

/-- A goroutine alone, whose trace has no `log.Fatal`, runs to its end. -/
theorem runSchedule_single :
    ∀ t : List Event, (∀ e ∈ t, e ≠ .logFatal) →
      runSchedule [t] (List.replicate t.length 0) =
        some (t.map (fun e => (0, e)), [[]]) := by
  intro t
  induction t with
  | nil => intro _; rfl
  | cons e t ih =>
    intro h
    have he : e ≠ .logFatal := h e (List.mem_cons_self _ _)
    have ht := ih (fun x hx => h x (List.mem_cons_of_mem _ hx))
    simp only [List.length_cons, List.replicate_succ, runSchedule, stepRun,
      List.getElem?_cons_zero, List.set_cons_zero, if_neg he, ht, List.map_cons]

/-- C9 as stated fails. With counts 0 and 2, when the first job gets a 101
whose body fails to close, the wait group never reaches zero; the run in which
the first worker moves first ends the process with no result received, and
the run in which the second worker goes through first ends it with three.
And with one job whose count is the largest `int`, the wait group never
reaches zero either, while runs receive any number of results. -/
theorem received_fails :
    (∀ (fuel : Nat) (sched : List Nat) (log : List (Nat × Event))
        (rest : List (List Event)),
      runSchedule ((processURLs sampleLib closeFirstNet sampleConfigs fuel).map Prod.fst)
        sched = some (log, rest) →
      wgCounter sampleConfigs log ≠ 0) ∧
    (runSchedule ((processURLs sampleLib closeFirstNet sampleConfigs 5).map Prod.fst)
        [0, 0, 0, 0, 0]).map (fun p => (received p.1, wgCounter sampleConfigs p.1)) =
      some ([], 2) ∧
    (∀ i : Nat,
      runSchedule ((processURLs sampleLib closeFirstNet sampleConfigs 5).map Prod.fst)
        [0, 0, 0, 0, 0, i] = none) ∧
    (runSchedule ((processURLs sampleLib closeFirstNet sampleConfigs 5).map Prod.fst)
        (List.replicate 23 1 ++ [0, 0, 0, 0, 0])).map
        (fun p => ((received p.1).length, wgCounter sampleConfigs p.1)) =
      some (3, 1) ∧
    (∀ i : Nat,
      runSchedule ((processURLs sampleLib closeFirstNet sampleConfigs 5).map Prod.fst)
        (List.replicate 23 1 ++ [0, 0, 0, 0, 0, i]) = none) ∧
    (∀ (fuel : Nat) (sched : List Nat) (log : List (Nat × Event))
        (rest : List (List Event)),
      runSchedule
        ((processURLs sampleLib (fun _ _ => refusedNet) maxConfigs fuel).map Prod.fst)
        sched = some (log, rest) →
      wgCounter maxConfigs log ≠ 0) ∧
    (∀ fuel : Nat, ∃ (sched : List Nat) (log : List (Nat × Event))
        (rest : List (List Event)),
      runSchedule
        ((processURLs sampleLib (fun _ _ => refusedNet) maxConfigs fuel).map Prod.fst)
        sched = some (log, rest) ∧
      (received log).length = fuel) := by
  refine ⟨?_, by decide, fun i => rfl, by decide, fun i => rfl, ?_, ?_⟩
  · intro fuel sched log rest hrun hjoin
    have hfin := (joined_all_done sampleLib closeFirstNet sampleConfigs fuel sched log rest
      hrun hjoin 0 (sampleJob 0) rfl).1
    rw [worker_status] at hfin
    have hf : (fetchURL sampleLib (closeFirstNet 0 0) (sampleJob 0).URL (sampleJob 0).Method
        (sampleJob 0).Host).2 = .fatal := by decide
    have hc : (0 : Int) ≤ (sampleJob 0).Count := by decide
    cases fuel with
    | zero => simp [workerLoop_zero] at hfin
    | succ fuel =>
      rw [@workerLoop_fatal sampleLib (closeFirstNet 0) (sampleJob 0) 0 0 hc hf] at hfin
      simp at hfin
  · intro fuel sched log rest hrun hjoin
    have hfin := (joined_all_done sampleLib (fun _ _ => refusedNet) maxConfigs fuel sched log
      rest hrun hjoin 0 (badJob maxInt) rfl).1
    rw [worker_status] at hfin
    exact workerLoop_maxInt_not_finished sampleLib (fun _ => refusedNet) (badJob maxInt) 5
      (le_refl _) fuel 0 0 zero_le_maxInt hfin
  · intro fuel
    have hparse : sampleLib.urlParse (badJob maxInt).URL =
        .error (ascii "missing protocol scheme") := rfl
    have hts : (processURLs sampleLib (fun _ _ => refusedNet) maxConfigs fuel).map Prod.fst =
        [(worker sampleLib (fun _ => refusedNet) (badJob maxInt) 5 fuel).1] := rfl
    have hrun := runSchedule_single
      (worker sampleLib (fun _ => refusedNet) (badJob maxInt) 5 fuel).1
      (worker_parse_error_no_fatal sampleLib (fun _ => refusedNet) (badJob maxInt) 5 _
        hparse fuel)
    refine ⟨_, _, _, by rw [hts]; exact hrun, ?_⟩
    rw [length_received, List.map_map]
    have hid : (Prod.snd ∘ fun e : Event => ((0 : Nat), e)) = id := rfl
    rw [hid, List.map_id, ← length_results, results_worker]
    exact (workerLoop_maxInt_runs sampleLib (fun _ => refusedNet) (badJob maxInt) 5
      (le_refl _)
      (fun _ => by
        show (fetchURL sampleLib refusedNet (badJob maxInt).URL (badJob maxInt).Method
          (badJob maxInt).Host).2 ≠ .fatal
        decide)
      fuel 0 0 zero_le_maxInt).2

end MultiCurl
